import Mathlib

set_option maxHeartbeats 1000000

/-!
Shallow embedding of the ESPAsyncHttpsClient repository
(src/AsyncHttpsClient.h, src/ESPAsyncHttpsClient.h) and proofs about it.

Byte buffers and Arduino String values are modelled as lists of characters.
The secure byte stream is modelled by the abstract byte-stream contract the
engine consumes: a connected flag, the buffered input bytes (available /
read / readBytes), a connect outcome, and a write capacity.
-/

namespace HttpsClient

/-- Byte strings of the embedded client: Arduino String and raw buffers. -/
abbrev Bytes := List Char

/-- Model of the C isspace predicate used by Arduino String.trim. -/
def isSpaceB (c : Char) : Bool :=
  c = ' ' || c = '\t' || c = '\n' || c = '\x0b' || c = '\x0c' || c = '\r'

/-- Model of Arduino String.trim: drop whitespace from both ends. -/
def trimB (l : Bytes) : Bytes :=
  ((l.dropWhile isSpaceB).reverse.dropWhile isSpaceB).reverse

/-- ASCII lowercasing of one character, as done inside startsWithNoCase. -/
def lowerC (c : Char) : Char :=
  if 'A' ≤ c ∧ c ≤ 'Z' then Char.ofNat (c.toNat - 'A'.toNat + 'a'.toNat) else c

/-- Model of AsyncHttpsClient.startsWithNoCase: length check plus
case-insensitive character-by-character comparison. -/
def startsWithNoCase : Bytes → Bytes → Bool
  | _, [] => true
  | [], _ :: _ => false
  | a :: s, b :: p => (lowerC a == lowerC b) && startsWithNoCase s p

/-- Exact prefix test on byte lists. -/
def startsWithB : Bytes → Bytes → Bool
  | _, [] => true
  | [], _ :: _ => false
  | a :: s, b :: p => (a == b) && startsWithB s p

/-- Substring containment on byte lists (String.indexOf ≥ 0). -/
def containsSub : Bytes → Bytes → Bool
  | [], ned => ned.isEmpty
  | a :: t, ned => startsWithB (a :: t) ned || containsSub t ned

/-- Model of AsyncHttpsClient.containsNoCase: lowercase both strings and
test substring containment (indexOf ≥ 0). -/
def containsNoCase (s : Bytes) (ned : Bytes) : Bool :=
  containsSub (s.map lowerC) (ned.map lowerC)

/-- Decimal digit value of a character, if any. -/
def digitVal? (c : Char) : Option Nat :=
  if '0' ≤ c ∧ c ≤ '9' then some (c.toNat - '0'.toNat) else none

/-- Hexadecimal digit value of a character, if any. -/
def hexDigitVal (c : Char) : Option Nat :=
  if '0' ≤ c ∧ c ≤ '9' then some (c.toNat - '0'.toNat)
  else if 'a' ≤ c ∧ c ≤ 'f' then some (c.toNat - 'a'.toNat + 10)
  else if 'A' ≤ c ∧ c ≤ 'F' then some (c.toNat - 'A'.toNat + 10)
  else none

/-- Character for a decimal digit. -/
def digitChar (d : Nat) : Char := Char.ofNat ('0'.toNat + d)

/-- Character for a hexadecimal digit (lower case letters). -/
def hexDigitChar (d : Nat) : Char :=
  if d < 10 then Char.ofNat ('0'.toNat + d) else Char.ofNat ('a'.toNat + (d - 10))

/-- Accumulator pass of the decimal renderer. -/
def natDecAux (n : Nat) (acc : Bytes) : Bytes :=
  if h : n = 0 then acc else natDecAux (n / 10) (digitChar (n % 10) :: acc)
termination_by n
decreasing_by exact Nat.div_lt_self (Nat.pos_of_ne_zero h) (by decide)

/-- Model of Arduino String(unsigned long): decimal rendering of a number. -/
def natDec (n : Nat) : Bytes := if n = 0 then ['0'] else natDecAux n []

/-- Accumulator pass of the hexadecimal renderer. -/
def natToHexAux (n : Nat) (acc : Bytes) : Bytes :=
  if h : n = 0 then acc else natToHexAux (n / 16) (hexDigitChar (n % 16) :: acc)
termination_by n
decreasing_by exact Nat.div_lt_self (Nat.pos_of_ne_zero h) (by decide)

/-- Lowercase hexadecimal rendering of a chunk size, used by the wire
encoder that produces chunked transfer encoding. -/
def natToHex (n : Nat) : Bytes := if n = 0 then ['0'] else natToHexAux n []

/-- Greedy decimal digit accumulation, stopping at the first non-digit. -/
def atolDigits : Bytes → Nat → Nat
  | [], acc => acc
  | c :: rest, acc =>
    match digitVal? c with
    | some d => atolDigits rest (acc * 10 + d)
    | none => acc

/-- Model of atol as called by Arduino String.toInt: skip whitespace, an
optional sign, then greedy decimal digits.  Numeric overflow is undefined
behaviour in the source and is modelled mathematically. -/
def atolB (l : Bytes) : Int :=
  match l.dropWhile isSpaceB with
  | [] => 0
  | c :: rest =>
    if c = '-' then -(atolDigits rest 0 : Int)
    else if c = '+' then (atolDigits rest 0 : Int)
    else (atolDigits (c :: rest) 0 : Int)

/-- Greedy hexadecimal digit accumulation, stopping at the first non-digit. -/
def strtoul16Core : Bytes → Nat → Nat
  | [], acc => acc
  | c :: rest, acc =>
    match hexDigitVal c with
    | some d => strtoul16Core rest (acc * 16 + d)
    | none => acc

/-- Skip an optional 0x / 0X marker, as strtoul does in base 16. -/
def skipHexMark (l : Bytes) : Bytes :=
  match l with
  | c0 :: c1 :: rest => if c0 = '0' ∧ (c1 = 'x' ∨ c1 = 'X') then rest else l
  | _ => l

/-- Model of strtoul(s, nullptr, 16) on the 32-bit ESP targets: skip
whitespace, optional sign and 0x marker, greedy hex digits, with the
result clamped at ULONG_MAX and a negative sign wrapping mod 2^32. -/
def strtoul16 (l : Bytes) : Nat :=
  match l.dropWhile isSpaceB with
  | [] => 0
  | c :: rest =>
    if c = '-' then (2 ^ 32 - min (strtoul16Core (skipHexMark rest) 0) (2 ^ 32 - 1)) % 2 ^ 32
    else if c = '+' then min (strtoul16Core (skipHexMark rest) 0) (2 ^ 32 - 1)
    else min (strtoul16Core (skipHexMark (c :: rest)) 0) (2 ^ 32 - 1)

/-- Unsigned 32-bit elapsed time, as computed by millis() - t0 on uint32_t. -/
def elapsed32 (now t0 : Nat) : Nat :=
  ((now % 2 ^ 32) + 2 ^ 32 - t0 % 2 ^ 32) % 2 ^ 32

/-- Request methods of the client. -/
inductive Method
  | M_GET
  | M_POST
deriving DecidableEq

/-- Engine states of the connection state machine. -/
inductive State
  | IDLE
  | CONNECT
  | SEND
  | READ_HEADERS
  | READ_BODY
  | DONE
  | ERROR
deriving DecidableEq

/-- Sub-states of the chunked body decoder. -/
inductive ChunkState
  | CHUNK_SIZE
  | CHUNK_DATA
  | CHUNK_CRLF
  | CHUNK_DONE
deriving DecidableEq

/-- Configuration snapshot (AsyncHttpsClient::Options). -/
structure Options where
  timeoutMs : Nat := 15000
  tlsHandshakeTimeout : Nat := 12000
  maxHeaderBytes : Nat := 4096
  maxBodyBytes : Nat := 16 * 1024
  ioChunkSize : Nat := 512
  keepBody : Bool := true
deriving DecidableEq

/-- Abstract secure byte stream consumed by the engine: connected flag,
buffered readable bytes, the outcome of a connect attempt, and how many
bytes a write call can push into the transport. -/
structure Client where
  connected : Bool := false
  input : Bytes := []
  connectResult : Bool := false
  writeCapacity : Nat := 0
deriving DecidableEq

/-- Stream close (WiFiClientSecure.stop): no longer connected, nothing
available to read. -/
def Client.stop (c : Client) : Client := { c with connected := false, input := [] }

/-- Stream connect attempt (DNS + TCP + TLS handshake inside connect). -/
def Client.connectTry (c : Client) : Bool × Client :=
  if c.connectResult then (true, { c with connected := true }) else (false, c)

/-- Stream write (client.print of the request buffer): the number of bytes
written, at most the buffer length and at most what the transport accepts. -/
def Client.printB (c : Client) (s : Bytes) : Nat := min c.writeCapacity s.length

/-- Whole mutable state of one AsyncHttpsClient instance. -/
structure Engine where
  client : Client := {}
  opt : Options := {}
  method : Method := .M_GET
  state : State := .IDLE
  host : Bytes := []
  port : Nat := 443
  path : Bytes := []
  hasCa : Bool := false
  nowEpoch : Nat := 0
  hasTime : Bool := false
  req : Bytes := []
  line : Bytes := []
  err : String := ""
  body : Bytes := []
  bodyOverflow : Bool := false
  httpStatus : Int := -1
  headerBytes : Nat := 0
  contentLength : Int := -1
  chunked : Bool := false
  seenHeaderEnd : Bool := false
  t0 : Nat := 0
  chunkState : ChunkState := .CHUNK_SIZE
  chunkLine : Bytes := []
  chunkRemaining : Nat := 0
deriving DecidableEq

/-- AsyncHttpsClient.fail: record the message, enter ERROR, close the
stream. -/
def fail (e : Engine) (msg : String) : Engine :=
  { e with err := msg, state := .ERROR, client := e.client.stop }

/-- Default body sink (AsyncHttpsClient.onBodyChunk), acting on the pair of
accumulated body and overflow flag; the Bool result is the continue/abort
signal returned to the decoders. -/
def onBodyChunk (opt : Options) (s : Bytes × Bool) (data : Bytes) : (Bytes × Bool) × Bool :=
  if opt.keepBody = false then (s, true)
  else if opt.maxBodyBytes < s.1.length + data.length then ((s.1, true), false)
  else ((s.1 ++ data, s.2), true)

/-- Delivery of successive fragments to the default sink, stopping at the
first rejected fragment, exactly as the decoding loops do. -/
def runSink (opt : Options) : List Bytes → (Bytes × Bool) → (Bytes × Bool)
  | [], s => s
  | f :: fs, s =>
    let p := onBodyChunk opt s f
    if p.2 then runSink opt fs p.1 else p.1

/-- Failure causes of the chunked-decoder core loop. -/
inductive CoreErr
  | lineTooLong
  | sinkAbort
deriving DecidableEq

/-- Result of one run of the chunked-decoder loop: decoder sub-state,
size-line buffer, remaining count, sink state, unread stream bytes and
the failure cause, if any. -/
structure CoreResult (σ : Type) where
  cs : ChunkState
  cl : Bytes
  rem : Nat
  s : σ
  leftover : Bytes
  error : Option CoreErr
deriving DecidableEq

/-- Result of the bulk-read inner loop of CHUNK_DATA. -/
structure BulkResult (σ : Type) where
  s : σ
  rem : Nat
  leftover : Bytes
  aborted : Bool
deriving DecidableEq

/-- Inner bulk-read loop of CHUNK_DATA: while bytes remain in the chunk and
the stream has data, read up to min(remaining, bufSz) bytes, forward them to
the sink and decrement the remaining count; stop on a zero-length read or a
sink abort (the remaining count is not decremented on abort, mirroring the
early return). -/
def bulkRead {σ : Type} (sink : σ → Bytes → σ × Bool) (bufSz : Nat)
    (rem : Nat) (s : σ) (input : Bytes) : BulkResult σ :=
  if rem = 0 then ⟨s, rem, input, false⟩
  else
    if h : (input.take (min rem bufSz)).length = 0 then ⟨s, rem, input, false⟩
    else
      let p := sink s (input.take (min rem bufSz))
      if p.2 then
        bulkRead sink bufSz (rem - (input.take (min rem bufSz)).length) p.1
          (input.drop (min rem bufSz))
      else ⟨p.1, rem, input.drop (min rem bufSz), true⟩
termination_by input.length
decreasing_by
  simp only [List.length_take] at h
  simp only [List.length_drop]
  omega

/-- Auxiliary bound: the bulk-read loop never returns more unread bytes
than it was given. -/
theorem bulkRead_leftover_le_aux {σ : Type} (sink : σ → Bytes → σ × Bool) (bufSz : Nat) :
    ∀ n rem (s : σ) (input : Bytes), input.length ≤ n →
      (bulkRead sink bufSz rem s input).leftover.length ≤ input.length := by
  intro n
  induction n with
  | zero =>
    intro rem s input hlen
    have hnil : input = [] := List.eq_nil_of_length_eq_zero (Nat.le_zero.mp hlen)
    subst hnil
    unfold bulkRead
    split
    · simp
    · split
      · simp
      · rename_i h
        simp at h
  | succ n ih =>
    intro rem s input hlen
    unfold bulkRead
    split
    · simp
    · split
      · simp
      · rename_i hrem h
        have hmin : 1 ≤ min rem bufSz ∧ 1 ≤ input.length := by
          simp only [List.length_take] at h
          omega
        dsimp only
        split
        · refine le_trans
            (ih _ _ _ (by simp only [List.length_drop]; omega)) ?_
          simp only [List.length_drop]
          exact Nat.sub_le _ _
        · simp only [List.length_drop]
          exact Nat.sub_le _ _

/-- The bulk-read loop never returns more unread bytes than it was given. -/
theorem bulkRead_leftover_le {σ : Type} (sink : σ → Bytes → σ × Bool) (bufSz : Nat)
    (rem : Nat) (s : σ) (input : Bytes) :
    (bulkRead sink bufSz rem s input).leftover.length ≤ input.length :=
  bulkRead_leftover_le_aux sink bufSz input.length rem s input le_rfl

/-- Outer loop of AsyncHttpsClient.stepReadChunkedBody, parameterized by the
(possibly overridden) body sink.  Reads one byte per iteration and dispatches
on the chunk sub-state; CHUNK_DATA additionally bulk-reads the remainder of
the declared chunk. -/
def chunkedLoop {σ : Type} (sink : σ → Bytes → σ × Bool) (bufSz : Nat) :
    ChunkState → Bytes → Nat → σ → Bytes → CoreResult σ
  | cs, cl, rem, s, [] => ⟨cs, cl, rem, s, [], none⟩
  | cs, cl, rem, s, ch :: rest =>
    match cs with
    | .CHUNK_SIZE =>
      if ch = '\n' then
        let t := trimB cl
        -- indexOf of the first semicolon plus substring(0, semi) is the
        -- longest prefix free of semicolons.
        let sizeStr := trimB (t.takeWhile (fun c => c != ';'))
        let rem2 := strtoul16 sizeStr
        if rem2 = 0 then chunkedLoop sink bufSz .CHUNK_DONE [] rem2 s rest
        else chunkedLoop sink bufSz .CHUNK_DATA [] rem2 s rest
      else
        let cl2 := cl ++ [ch]
        if cl2.length > 64 then ⟨.CHUNK_SIZE, cl2, rem, s, rest, some .lineTooLong⟩
        else chunkedLoop sink bufSz .CHUNK_SIZE cl2 rem s rest
    | .CHUNK_DATA =>
      let p := sink s [ch]
      if p.2 then
        let r := bulkRead sink bufSz (rem - 1) p.1 rest
        if r.aborted then ⟨.CHUNK_DATA, cl, r.rem, r.s, r.leftover, some .sinkAbort⟩
        else
          chunkedLoop sink bufSz (if r.rem = 0 then .CHUNK_CRLF else .CHUNK_DATA) cl r.rem r.s r.leftover
      else ⟨.CHUNK_DATA, cl, rem, p.1, rest, some .sinkAbort⟩
    | .CHUNK_CRLF =>
      chunkedLoop sink bufSz (if ch = '\n' then .CHUNK_SIZE else .CHUNK_CRLF) cl rem s rest
    | .CHUNK_DONE => chunkedLoop sink bufSz .CHUNK_DONE cl rem s rest
termination_by _ _ _ _ input => input.length
decreasing_by
  all_goals simp only [List.length_cons]
  all_goals first
    | omega
    | (have hle := bulkRead_leftover_le sink bufSz (rem - 1) (sink s [ch]).1 rest
       omega)

/-- A sink that accepts every fragment and records the forwarded bytes in
order: the observation point for what the decoder hands to the body sink. -/
def collectSink (acc : Bytes) (d : Bytes) : Bytes × Bool := (acc ++ d, true)

/-- The decoder loop stops when no bytes are available. -/
theorem chunkedLoop_nil {σ : Type} (sink : σ → Bytes → σ × Bool) (bufSz : Nat)
    (cs : ChunkState) (cl : Bytes) (rem : Nat) (s : σ) :
    chunkedLoop sink bufSz cs cl rem s [] = ⟨cs, cl, rem, s, [], none⟩ := by
  rw [chunkedLoop]

/-- One CHUNK_SIZE step on a byte other than a newline: the byte joins the
size-line buffer, subject to the 64-byte cap. -/
theorem chunkedLoop_size_char {σ : Type} (sink : σ → Bytes → σ × Bool) (bufSz : Nat)
    (cl : Bytes) (rem : Nat) (s : σ) (ch : Char) (rest : Bytes) (hch : ¬ch = '\n') :
    chunkedLoop sink bufSz .CHUNK_SIZE cl rem s (ch :: rest) =
      if (cl ++ [ch]).length > 64 then
        ⟨.CHUNK_SIZE, cl ++ [ch], rem, s, rest, some .lineTooLong⟩
      else chunkedLoop sink bufSz .CHUNK_SIZE (cl ++ [ch]) rem s rest := by
  rw [chunkedLoop]
  simp [hch]

/-- One CHUNK_SIZE step on the newline: the size line is trimmed, cut at a
semicolon, parsed as hex, and the machine moves to CHUNK_DONE (on zero) or
CHUNK_DATA. -/
theorem chunkedLoop_size_nl {σ : Type} (sink : σ → Bytes → σ × Bool) (bufSz : Nat)
    (cl : Bytes) (rem : Nat) (s : σ) (rest : Bytes) :
    chunkedLoop sink bufSz .CHUNK_SIZE cl rem s ('\n' :: rest) =
      if strtoul16 (trimB ((trimB cl).takeWhile (fun c => c != ';'))) = 0 then
        chunkedLoop sink bufSz .CHUNK_DONE []
          (strtoul16 (trimB ((trimB cl).takeWhile (fun c => c != ';')))) s rest
      else
        chunkedLoop sink bufSz .CHUNK_DATA []
          (strtoul16 (trimB ((trimB cl).takeWhile (fun c => c != ';')))) s rest := by
  rw [chunkedLoop]
  simp

/-- One CHUNK_DATA step: the current byte goes to the sink, then the bulk
read consumes up to the rest of the declared chunk. -/
theorem chunkedLoop_data_cons {σ : Type} (sink : σ → Bytes → σ × Bool) (bufSz : Nat)
    (cl : Bytes) (rem : Nat) (s : σ) (ch : Char) (rest : Bytes) :
    chunkedLoop sink bufSz .CHUNK_DATA cl rem s (ch :: rest) =
      if (sink s [ch]).2 then
        if (bulkRead sink bufSz (rem - 1) (sink s [ch]).1 rest).aborted then
          ⟨.CHUNK_DATA, cl, (bulkRead sink bufSz (rem - 1) (sink s [ch]).1 rest).rem,
            (bulkRead sink bufSz (rem - 1) (sink s [ch]).1 rest).s,
            (bulkRead sink bufSz (rem - 1) (sink s [ch]).1 rest).leftover, some .sinkAbort⟩
        else
          chunkedLoop sink bufSz
            (if (bulkRead sink bufSz (rem - 1) (sink s [ch]).1 rest).rem = 0 then .CHUNK_CRLF
             else .CHUNK_DATA) cl
            (bulkRead sink bufSz (rem - 1) (sink s [ch]).1 rest).rem
            (bulkRead sink bufSz (rem - 1) (sink s [ch]).1 rest).s
            (bulkRead sink bufSz (rem - 1) (sink s [ch]).1 rest).leftover
      else ⟨.CHUNK_DATA, cl, rem, (sink s [ch]).1, rest, some .sinkAbort⟩ := by
  rw [chunkedLoop]

/-- One CHUNK_CRLF step: a newline returns to CHUNK_SIZE, anything else is
discarded. -/
theorem chunkedLoop_crlf_cons {σ : Type} (sink : σ → Bytes → σ × Bool) (bufSz : Nat)
    (cl : Bytes) (rem : Nat) (s : σ) (ch : Char) (rest : Bytes) :
    chunkedLoop sink bufSz .CHUNK_CRLF cl rem s (ch :: rest) =
      chunkedLoop sink bufSz (if ch = '\n' then .CHUNK_SIZE else .CHUNK_CRLF) cl rem s
        rest := by
  rw [chunkedLoop]

/-- One CHUNK_DONE step: trailing bytes are discarded. -/
theorem chunkedLoop_done_cons {σ : Type} (sink : σ → Bytes → σ × Bool) (bufSz : Nat)
    (cl : Bytes) (rem : Nat) (s : σ) (ch : Char) (rest : Bytes) :
    chunkedLoop sink bufSz .CHUNK_DONE cl rem s (ch :: rest) =
      chunkedLoop sink bufSz .CHUNK_DONE cl rem s rest := by
  rw [chunkedLoop]

/-- Wire encoding of one chunk: lowercase hex size line, CRLF, the data
bytes, CRLF. -/
def encodeChunk (c : Bytes) : Bytes :=
  natToHex c.length ++ ['\r', '\n'] ++ c ++ ['\r', '\n']

/-- Chunked transfer encoding of a chunk split: every chunk in sequence,
then the zero-length terminal chunk and the final blank line. -/
def encodeChunked (chunks : List Bytes) : Bytes :=
  (chunks.map encodeChunk).flatten ++ ['0', '\r', '\n', '\r', '\n']

/-- AsyncHttpsClient.stepReadChunkedBody: run the decoder loop over the
available bytes with the default sink, then write back the decoder state,
fail on a decoder error, or finish once the stream is closed and drained. -/
def stepReadChunkedBody (e : Engine) : Engine :=
  let bufSz := min e.opt.ioChunkSize 768
  let r := chunkedLoop (onBodyChunk e.opt) bufSz e.chunkState e.chunkLine e.chunkRemaining
      (e.body, e.bodyOverflow) e.client.input
  let e1 := { e with chunkState := r.cs, chunkLine := r.cl, chunkRemaining := r.rem,
                     body := r.s.1, bodyOverflow := r.s.2,
                     client := { e.client with input := r.leftover } }
  match r.error with
  | some .lineTooLong => fail e1 "chunk size line too long"
  | some .sinkAbort =>
    fail e1 (if e1.bodyOverflow then "body exceeded maxBodyBytes" else "body handler aborted")
  | none =>
    if e1.client.connected = false ∧ e1.client.input = [] then
      { e1 with client := e1.client.stop, state := .DONE }
    else e1

/-- Loop of the non-chunked body reader: while bytes are available read up
to bufSz of them, forward the block to the default sink, stop on abort.
Returns the final sink state, the unread bytes and the abort flag. -/
def bodyLoop (opt : Options) (bufSz : Nat) (input : Bytes) (s : Bytes × Bool) :
    (Bytes × Bool) × Bytes × Bool :=
  if input.length = 0 then (s, [], false)
  else
    if h : (input.take bufSz).length = 0 then (s, input, false)
    else
      let p := onBodyChunk opt s (input.take bufSz)
      if p.2 then bodyLoop opt bufSz (input.drop bufSz) p.1
      else (p.1, input.drop bufSz, true)
termination_by input.length
decreasing_by
  simp only [List.length_take] at h
  simp only [List.length_drop]
  omega

/-- AsyncHttpsClient.stepReadBody: dispatch to the chunked decoder, or run
the bounded/until-close loop; fail if the sink aborted, otherwise reach DONE
exactly when the stream is closed with nothing left to read. -/
def stepReadBody (e : Engine) : Engine :=
  if e.seenHeaderEnd = false then e
  else if e.chunked then stepReadChunkedBody e
  else
    let bufSz := min e.opt.ioChunkSize 768
    let r := bodyLoop e.opt bufSz e.client.input (e.body, e.bodyOverflow)
    let e1 := { e with body := r.1.1, bodyOverflow := r.1.2,
                       client := { e.client with input := r.2.1 } }
    if r.2.2 then
      fail e1 (if e1.bodyOverflow then "body exceeded maxBodyBytes" else "body handler aborted")
    else if e1.client.connected = false ∧ e1.client.input = [] then
      { e1 with client := e1.client.stop, state := .DONE }
    else e1

/-- Header-parsing fields threaded through the header loop. -/
structure HdrState where
  headerBytes : Nat := 0
  line : Bytes := []
  httpStatus : Int := -1
  contentLength : Int := -1
  chunked : Bool := false
deriving DecidableEq

/-- Outcome of the header loop: input exhausted, end of headers seen, or a
failure with its message. -/
inductive HdrOutcome
  | more (h : HdrState)
  | headerEnd (h : HdrState) (leftover : Bytes)
  | failed (h : HdrState) (msg : String) (leftover : Bytes)
deriving DecidableEq

/-- Dispatch on one complete, trimmed header line: status line, header
Content-Length (case-insensitive, integer parse of the trimmed remainder),
header Transfer-Encoding containing chunked; anything else is ignored. -/
def dispatchLine (h : HdrState) (l : Bytes) : HdrState :=
  if ("HTTP/1.1".data).isPrefixOf l ∧ 12 ≤ l.length then
    { h with httpStatus := atolB ((l.drop 9).take 3) }
  else if startsWithNoCase l ("Content-Length:".data) then
    { h with contentLength := atolB (trimB (l.drop ("Content-Length:".data).length)) }
  else if startsWithNoCase l ("Transfer-Encoding:".data) then
    if containsNoCase l ("chunked".data) then { h with chunked := true } else h
  else h

/-- Byte loop of AsyncHttpsClient.stepReadHeaders: count each byte against
the header cap, accumulate the line buffer (capped at 512), and at each
newline trim and dispatch the line, detecting the empty end-of-headers
line. -/
def headersLoop (opt : Options) : Bytes → HdrState → HdrOutcome
  | [], h => .more h
  | ch :: rest, h0 =>
    let h1 := { h0 with headerBytes := h0.headerBytes + 1 }
    if h1.headerBytes > opt.maxHeaderBytes then .failed h1 "headers too large" rest
    else
      let h2 := { h1 with line := h1.line ++ [ch] }
      if h2.line.length > 512 then .failed h2 "header line too long" rest
      else if ch = '\n' then
        let l := trimB h2.line
        let h3 := { h2 with line := [] }
        if l = [] then .headerEnd h3 rest
        else headersLoop opt rest (dispatchLine h3 l)
      else headersLoop opt rest h2

/-- Write header-loop fields and the unread bytes back into the engine. -/
def putHdr (e : Engine) (h : HdrState) (leftover : Bytes) : Engine :=
  { e with headerBytes := h.headerBytes, line := h.line, httpStatus := h.httpStatus,
           contentLength := h.contentLength, chunked := h.chunked,
           client := { e.client with input := leftover } }

/-- AsyncHttpsClient.stepReadHeaders: fail if the stream closed with nothing
left, otherwise run the header loop and apply its outcome. -/
def stepReadHeaders (e : Engine) : Engine :=
  if e.client.connected = false ∧ e.client.input = [] then fail e "closed during headers"
  else
    match headersLoop e.opt e.client.input
        ⟨e.headerBytes, e.line, e.httpStatus, e.contentLength, e.chunked⟩ with
    | .more h => putHdr e h []
    | .headerEnd h rest =>
      { putHdr e h rest with seenHeaderEnd := true, state := .READ_BODY }
    | .failed h msg rest => fail (putHdr e h rest) msg

/-- AsyncHttpsClient.stepConnect: already connected means go to SEND, else
attempt the connect (DNS + TCP + TLS) and fail if it does not succeed. -/
def stepConnect (e : Engine) : Engine :=
  if e.client.connected then { e with state := .SEND }
  else
    let p := e.client.connectTry
    if p.1 = false then fail { e with client := p.2 } "connect/TLS failed"
    else { e with client := p.2, state := .SEND }

/-- AsyncHttpsClient.stepSend: fail if the stream closed before send, write
the request buffer, fail if zero bytes were written, else go to
READ_HEADERS. -/
def stepSend (e : Engine) : Engine :=
  if e.client.connected = false then fail e "socket closed before send"
  else if e.client.printB e.req = 0 then fail e "send failed"
  else { e with state := .READ_HEADERS }

/-- AsyncHttpsClient.poll: no-op in IDLE/DONE/ERROR, then the overall
timeout check on 32-bit elapsed milliseconds, then dispatch on the state. -/
def poll (now : Nat) (e : Engine) : Engine :=
  if e.state = .IDLE ∨ e.state = .DONE ∨ e.state = .ERROR then e
  else if e.opt.timeoutMs < elapsed32 now e.t0 then fail e "timeout"
  else
    match e.state with
    | .CONNECT => stepConnect e
    | .SEND => stepSend e
    | .READ_HEADERS => stepReadHeaders e
    | .READ_BODY => stepReadBody e
    | _ => e

/-- Serialized HTTP/1.1 request, exactly as assembled by
AsyncHttpsClient.beginRequest (request line, fixed headers, forgiving
extra-header termination, then POST entity headers and body or the final
blank line). -/
def buildRequest (m : Method) (host : Bytes) (path body contentType extraHeaders : Bytes) :
    Bytes :=
  (if m = .M_GET then "GET ".data else "POST ".data) ++ path ++ " HTTP/1.1\r\nHost: ".data ++
    host ++ "\r\nUser-Agent: esp-secure/1.0\r\nAccept: */*\r\nConnection: close\r\n".data ++
    (if extraHeaders.length > 0 then
       extraHeaders ++ (if ("\r\n".data).isSuffixOf extraHeaders then [] else "\r\n".data)
     else []) ++
    (if m = .M_POST then
       "Content-Type: ".data ++ contentType ++ "\r\nContent-Length: ".data ++
         natDec body.length ++ "\r\n\r\n".data ++ body
     else "\r\n".data)

/-- AsyncHttpsClient.reset: close the stream, go IDLE, clear every
per-request field (prerequisite flags and options persist). -/
def resetE (e : Engine) : Engine :=
  { e with client := e.client.stop, state := .IDLE, err := "", httpStatus := -1,
           body := [], bodyOverflow := false, req := [], headerBytes := 0,
           contentLength := -1, chunked := false, seenHeaderEnd := false, line := [],
           chunkState := .CHUNK_SIZE, chunkRemaining := 0, chunkLine := [] }

/-- AsyncHttpsClient.beginRequest: reset, check the TLS prerequisites (CA
material and time source), then build the request, stamp the start time and
enter CONNECT.  Returns the updated engine and the Bool result. -/
def beginRequest (now : Nat) (m : Method) (host : Bytes) (port : Nat)
    (path body contentType extraHeaders : Bytes) (e : Engine) : Engine × Bool :=
  let e0 := resetE e
  if e0.hasCa = false then (fail e0 "TLS CA cert not set (setCACert)", false)
  else if e0.hasTime = false then (fail e0 "System time not set (setUnixTime / SNTP)", false)
  else
    ({ e0 with method := m, host := host, port := port, path := path,
               req := buildRequest m host path body contentType extraHeaders,
               t0 := now, state := .CONNECT }, true)

/-- AsyncHttpsClient.setCACert: record the PEM and whether it is non-null
and non-empty. -/
def setCACert (e : Engine) (caPem : Option Bytes) : Engine :=
  { e with hasCa := match caPem with
      | some (_ :: _) => true
      | _ => false }

/-- AsyncHttpsClient.setUnixTime: epoch seconds, considered set when beyond
the hard-coded sanity bound. -/
def setUnixTime (e : Engine) (nowEpoch : Nat) : Engine :=
  { e with nowEpoch := nowEpoch, hasTime := 1600000000 < nowEpoch }

/-! ## Basic facts about fail -/

/-- fail always enters ERROR, closes and drains the stream, and stores the
message. -/
theorem fail_closed (e : Engine) (msg : String) :
    (fail e msg).state = .ERROR ∧ (fail e msg).client.connected = false ∧
      (fail e msg).client.input = [] ∧ (fail e msg).err = msg :=
  ⟨rfl, rfl, rfl, rfl⟩

/-! ## C3: the timeout check dominates every active state -/

/-- C3: on every poll in an active state (CONNECT, SEND, READ_HEADERS,
READ_BODY), if the 32-bit elapsed time exceeds the overall timeout the poll
is exactly the timeout failure: the engine reaches ERROR with the timeout
message, never DONE, before any state dispatch happens. -/
theorem poll_timeout_dominates (e : Engine) (now : Nat)
    (hs : e.state = .CONNECT ∨ e.state = .SEND ∨ e.state = .READ_HEADERS ∨
      e.state = .READ_BODY)
    (ht : e.opt.timeoutMs < elapsed32 now e.t0) :
    poll now e = fail e "timeout" ∧ (poll now e).state = .ERROR ∧
      (poll now e).err = "timeout" ∧ ¬(poll now e).state = .DONE := by
  have h1 : ¬(e.state = .IDLE ∨ e.state = .DONE ∨ e.state = .ERROR) := by
    rcases hs with h | h | h | h <;> simp [h]
  have h2 : poll now e = fail e "timeout" := by
    unfold poll
    rw [if_neg h1, if_pos ht]
  refine ⟨h2, ?_, ?_, ?_⟩ <;> simp [h2, fail]

/-- Concrete engine sitting in CONNECT with the default 15000 ms timeout. -/
def c3Engine : Engine := { state := .CONNECT }

/-- Witness for C3 at a concrete overdue poll. -/
theorem poll_timeout_dominates_witness :
    (c3Engine.state = .CONNECT ∨ c3Engine.state = .SEND ∨
        c3Engine.state = .READ_HEADERS ∨ c3Engine.state = .READ_BODY) ∧
      c3Engine.opt.timeoutMs < elapsed32 20000 c3Engine.t0 ∧
      poll 20000 c3Engine = fail c3Engine "timeout" :=
  ⟨Or.inl rfl, by decide,
    (poll_timeout_dominates c3Engine 20000 (Or.inl rfl) (by decide)).1⟩

/-! ## C4: the SEND step -/

/-- Connected engine in SEND whose transport accepts a single byte per
write, with a request buffer longer than one byte. -/
def c4Engine : Engine :=
  { client := { connected := true, input := [], connectResult := true, writeCapacity := 1 },
    state := .SEND, req := "GET / HTTP/1.1\r\n\r\n".data }

/-- C4 counterexample: the SEND step advances to READ_HEADERS after a
strictly partial write, so the transition does not wait for the full
serialized request to be written. -/
theorem stepSend_partial_write_cex :
    (stepSend c4Engine).state = .READ_HEADERS ∧
      c4Engine.client.printB c4Engine.req < c4Engine.req.length := by decide

/-- C4 amended: SEND advances to READ_HEADERS whenever at least one byte of
the request could be written; it fails with the send-failed error exactly
when zero bytes could be written while the stream reports connected, and
with the closed-before-send error when the stream is not connected. -/
theorem stepSend_spec (e : Engine) :
    (e.client.connected = false → stepSend e = fail e "socket closed before send") ∧
    (e.client.connected = true → e.client.printB e.req = 0 →
      stepSend e = fail e "send failed") ∧
    (e.client.connected = true → 0 < e.client.printB e.req →
      stepSend e = { e with state := .READ_HEADERS }) := by
  unfold stepSend
  refine ⟨fun h => by rw [if_pos h], fun h1 h2 => ?_, fun h1 h2 => ?_⟩
  · rw [if_neg (by simp [h1]), if_pos h2]
  · rw [if_neg (by simp [h1]), if_neg (by omega)]

/-- Witness for the amended C4 at the concrete partial-write engine. -/
theorem stepSend_spec_witness :
    stepSend c4Engine = { c4Engine with state := .READ_HEADERS } :=
  (stepSend_spec c4Engine).2.2 rfl (by decide)

/-! ## C9: TLS prerequisites gate request submission -/

/-- C9: submission refuses to build (returns false, ends in ERROR with a
non-empty description, stream closed so no connection was attempted)
whenever the CA material or the time source is missing; with both
prerequisites set, submission succeeds and enters CONNECT. -/
theorem beginRequest_prereq (e : Engine) (now : Nat) (m : Method)
    (host path body ct extra : Bytes) (port : Nat) :
    ((e.hasCa = false ∨ e.hasTime = false) →
        (beginRequest now m host port path body ct extra e).2 = false ∧
        (beginRequest now m host port path body ct extra e).1.state = .ERROR ∧
        ¬(beginRequest now m host port path body ct extra e).1.err = "" ∧
        (beginRequest now m host port path body ct extra e).1.client.connected = false) ∧
    (e.hasCa = true → e.hasTime = true →
        (beginRequest now m host port path body ct extra e).2 = true ∧
        (beginRequest now m host port path body ct extra e).1.state = .CONNECT ∧
        (beginRequest now m host port path body ct extra e).1.client.connected = false) := by
  constructor
  · intro h
    rcases h with h | h
    · unfold beginRequest
      rw [if_pos (by simp [resetE, h])]
      exact ⟨rfl, rfl, (by decide : ¬"TLS CA cert not set (setCACert)" = ""), rfl⟩
    · unfold beginRequest
      by_cases hca : e.hasCa = false
      · rw [if_pos (by simp [resetE, hca])]
        exact ⟨rfl, rfl, (by decide : ¬"TLS CA cert not set (setCACert)" = ""), rfl⟩
      · rw [if_neg (by simp [resetE]; simpa using hca), if_pos (by simp [resetE, h])]
        exact ⟨rfl, rfl, (by decide : ¬"System time not set (setUnixTime / SNTP)" = ""), rfl⟩
  · intro hca htime
    unfold beginRequest
    rw [if_neg (by simp [resetE, hca]), if_neg (by simp [resetE, htime])]
    exact ⟨rfl, rfl, rfl⟩

/-- Engine with no prerequisites established. -/
def c9Engine : Engine := {}

/-- Witness for C9: with no CA material, submission fails closed. -/
theorem beginRequest_prereq_witness :
    (beginRequest 0 .M_GET [] 443 [] [] [] [] c9Engine).2 = false ∧
      (beginRequest 0 .M_GET [] 443 [] [] [] [] c9Engine).1.state = .ERROR ∧
      ¬(beginRequest 0 .M_GET [] 443 [] [] [] [] c9Engine).1.err = "" ∧
      (beginRequest 0 .M_GET [] 443 [] [] [] [] c9Engine).1.client.connected = false :=
  (beginRequest_prereq c9Engine 0 .M_GET [] [] [] [] [] 443).1 (Or.inl rfl)

/-! ## C8: every transition into ERROR closes the stream and records a
message -/

/-- The header loop can only fail with one of its two messages. -/
theorem headersLoop_failed_msg (opt : Options) :
    ∀ (input : Bytes) (h0 h1 : HdrState) (msg : String) (rest : Bytes),
      headersLoop opt input h0 = .failed h1 msg rest →
      msg = "headers too large" ∨ msg = "header line too long" := by
  intro input
  induction input with
  | nil =>
    intro h0 h1 msg rest hh
    simp [headersLoop] at hh
  | cons ch t ih =>
    intro h0 h1 msg rest hh
    unfold headersLoop at hh
    dsimp only at hh
    split at hh
    · cases hh; exact Or.inl rfl
    · split at hh
      · cases hh; exact Or.inr rfl
      · split at hh
        · split at hh
          · cases hh
          · exact ih _ _ _ _ hh
        · exact ih _ _ _ _ hh

/-- If the CONNECT step lands in ERROR it has closed the stream and left a
non-empty message. -/
theorem stepConnect_error (e : Engine) (hne : ¬e.state = .ERROR) :
    (stepConnect e).state = .ERROR →
      (stepConnect e).client.connected = false ∧ (stepConnect e).client.input = [] ∧
        ¬(stepConnect e).err = "" := by
  unfold stepConnect
  split
  · intro h; simp at h
  · dsimp only
    split
    · intro _
      exact ⟨rfl, rfl, (by decide : ¬"connect/TLS failed" = "")⟩
    · intro h; simp at h

/-- If the SEND step lands in ERROR it has closed the stream and left a
non-empty message. -/
theorem stepSend_error (e : Engine) (hne : ¬e.state = .ERROR) :
    (stepSend e).state = .ERROR →
      (stepSend e).client.connected = false ∧ (stepSend e).client.input = [] ∧
        ¬(stepSend e).err = "" := by
  unfold stepSend
  split
  · intro _
    exact ⟨rfl, rfl, (by decide : ¬"socket closed before send" = "")⟩
  · split
    · intro _
      exact ⟨rfl, rfl, (by decide : ¬"send failed" = "")⟩
    · intro h; simp at h

/-- If the READ_HEADERS step lands in ERROR it has closed the stream and
left a non-empty message. -/
theorem stepReadHeaders_error (e : Engine) (hne : ¬e.state = .ERROR) :
    (stepReadHeaders e).state = .ERROR →
      (stepReadHeaders e).client.connected = false ∧
        (stepReadHeaders e).client.input = [] ∧ ¬(stepReadHeaders e).err = "" := by
  unfold stepReadHeaders
  split
  · intro _
    exact ⟨rfl, rfl, (by decide : ¬"closed during headers" = "")⟩
  · split
    · intro h; simp [putHdr] at h; exact absurd h hne
    · intro h; simp [putHdr] at h
    · rename_i h0 msg rest heq
      intro _
      rcases headersLoop_failed_msg e.opt _ _ _ _ _ heq with hm | hm
      · subst hm
        exact ⟨rfl, rfl, (by decide : ¬"headers too large" = "")⟩
      · subst hm
        exact ⟨rfl, rfl, (by decide : ¬"header line too long" = "")⟩

/-- If the chunked body step lands in ERROR it has closed the stream and
left a non-empty message. -/
theorem stepReadChunkedBody_error (e : Engine) (hne : ¬e.state = .ERROR) :
    (stepReadChunkedBody e).state = .ERROR →
      (stepReadChunkedBody e).client.connected = false ∧
        (stepReadChunkedBody e).client.input = [] ∧
        ¬(stepReadChunkedBody e).err = "" := by
  unfold stepReadChunkedBody
  dsimp only
  split
  · intro _
    exact ⟨rfl, rfl, (by decide : ¬"chunk size line too long" = "")⟩
  · split
    · intro _
      exact ⟨rfl, rfl, (by decide : ¬"body exceeded maxBodyBytes" = "")⟩
    · intro _
      exact ⟨rfl, rfl, (by decide : ¬"body handler aborted" = "")⟩
  · split
    · intro h; simp at h
    · intro h; simp at h; exact absurd h hne

/-- If the READ_BODY step lands in ERROR it has closed the stream and left
a non-empty message. -/
theorem stepReadBody_error (e : Engine) (hne : ¬e.state = .ERROR) :
    (stepReadBody e).state = .ERROR →
      (stepReadBody e).client.connected = false ∧
        (stepReadBody e).client.input = [] ∧ ¬(stepReadBody e).err = "" := by
  unfold stepReadBody
  split
  · intro h; exact absurd h hne
  · split
    · exact stepReadChunkedBody_error e hne
    · dsimp only
      split
      · split
        · intro _
          exact ⟨rfl, rfl, (by decide : ¬"body exceeded maxBodyBytes" = "")⟩
        · intro _
          exact ⟨rfl, rfl, (by decide : ¬"body handler aborted" = "")⟩
      · split
        · intro h; simp at h
        · intro h; simp at h; exact absurd h hne

/-- C8: any poll that moves the engine into ERROR leaves the stream closed
and drained with a non-empty error description, and once in ERROR the poll
is a strict no-op, so no further stream activity happens. -/
theorem error_closes_stream (e : Engine) (now : Nat) :
    (¬e.state = .ERROR → (poll now e).state = .ERROR →
        (poll now e).client.connected = false ∧ (poll now e).client.input = [] ∧
          ¬(poll now e).err = "") ∧
    (e.state = .ERROR → poll now e = e) := by
  constructor
  · intro hne
    unfold poll
    split
    · intro h; rename_i hidle
      rcases hidle with h1 | h1 | h1 <;> simp_all
    · split
      · intro _
        exact ⟨rfl, rfl, (by decide : ¬"timeout" = "")⟩
      · split
        · exact stepConnect_error e hne
        · exact stepSend_error e hne
        · exact stepReadHeaders_error e hne
        · exact stepReadBody_error e hne
        · intro h; exact absurd h hne
  · intro h
    unfold poll
    rw [if_pos (Or.inr (Or.inr h))]

/-- Engine already in ERROR. -/
def c8Engine : Engine := { state := .ERROR, err := "timeout" }

/-- Witness for C8: polling an ERROR engine changes nothing. -/
theorem error_closes_stream_witness : poll 0 c8Engine = c8Engine :=
  (error_closes_stream c8Engine 0).2 rfl

/-! ## C2: the default sink never exceeds the body cap -/

/-- With keep-body on, a fragment that would exceed the cap is rejected:
the body is untouched, the overflow flag set, abort signalled. -/
theorem onBodyChunk_reject (opt : Options) (hk : opt.keepBody = true)
    (s : Bytes × Bool) (f : Bytes)
    (hov : opt.maxBodyBytes < s.1.length + f.length) :
    onBodyChunk opt s f = ((s.1, true), false) := by
  unfold onBodyChunk
  rw [if_neg (by simp [hk]), if_pos hov]

/-- With keep-body on, a fragment within the cap is appended whole. -/
theorem onBodyChunk_accept (opt : Options) (hk : opt.keepBody = true)
    (s : Bytes × Bool) (f : Bytes)
    (hov : ¬opt.maxBodyBytes < s.1.length + f.length) :
    onBodyChunk opt s f = ((s.1 ++ f, s.2), true) := by
  unfold onBodyChunk
  rw [if_neg (by simp [hk]), if_neg hov]

/-- Unfolding of the fragment-delivery loop at a cons. -/
theorem runSink_cons (opt : Options) (f : Bytes) (fs : List Bytes) (s : Bytes × Bool) :
    runSink opt (f :: fs) s =
      if (onBodyChunk opt s f).2 then runSink opt fs (onBodyChunk opt s f).1
      else (onBodyChunk opt s f).1 := rfl

/-- Generalized cap invariant for delivering fragments to the default sink
from any overflow-free state within the cap. -/
theorem runSink_spec (opt : Options) (hk : opt.keepBody = true) :
    ∀ (frags : List Bytes) (s : Bytes × Bool), s.2 = false →
      s.1.length ≤ opt.maxBodyBytes →
      (runSink opt frags s).1.length ≤ opt.maxBodyBytes ∧
      ((runSink opt frags s).2 = false →
        (runSink opt frags s).1 = s.1 ++ frags.flatten) ∧
      ((runSink opt frags s).2 = true → ∃ i, ∃ hi : i < frags.length,
        (runSink opt frags s).1 = s.1 ++ (frags.take i).flatten ∧
        opt.maxBodyBytes < (runSink opt frags s).1.length +
          (frags.get ⟨i, hi⟩).length) := by
  intro frags
  induction frags with
  | nil =>
    intro s h2 h1
    refine ⟨h1, fun _ => by simp [runSink], fun hc => ?_⟩
    rw [show runSink opt [] s = s from rfl] at hc
    rw [h2] at hc
    cases hc
  | cons f fs ih =>
    intro s h2 h1
    by_cases hov : opt.maxBodyBytes < s.1.length + f.length
    · have hstep : runSink opt (f :: fs) s = (s.1, true) := by
        rw [runSink_cons, onBodyChunk_reject opt hk s f hov]
        simp
      rw [hstep]
      refine ⟨h1, ?_, ?_⟩
      · intro hc; cases hc
      · intro _
        exact ⟨0, by simp, by simp, by simpa using hov⟩
    · have hstep : runSink opt (f :: fs) s = runSink opt fs (s.1 ++ f, s.2) := by
        rw [runSink_cons, onBodyChunk_accept opt hk s f hov]
        simp
      rw [hstep]
      have hrec := ih (s.1 ++ f, s.2) h2 (by simp; omega)
      refine ⟨hrec.1, fun hfin => ?_, fun habo => ?_⟩
      · rw [hrec.2.1 hfin]
        simp
      · obtain ⟨i, hi, heq, hlt⟩ := hrec.2.2 habo
        refine ⟨i + 1, by simp; omega, ?_, ?_⟩
        · rw [heq]; simp
        · simpa using hlt

/-- C2: delivering any fragment sequence to the default keep-body sink (as
the decoding loops do, stopping at the first rejection) never accumulates
more than the configured max body bytes; if no fragment is rejected the
body is exactly the concatenation of all fragments, and if one is rejected
the body is exactly the fragments accepted before it (no partial append)
with the overflow flag set by that single rejection, which is the abort
signal. -/
theorem bodySink_cap (opt : Options) (frags : List Bytes) (hk : opt.keepBody = true) :
    (runSink opt frags ([], false)).1.length ≤ opt.maxBodyBytes ∧
    ((runSink opt frags ([], false)).2 = false →
      (runSink opt frags ([], false)).1 = frags.flatten) ∧
    ((runSink opt frags ([], false)).2 = true → ∃ i, ∃ hi : i < frags.length,
      (runSink opt frags ([], false)).1 = (frags.take i).flatten ∧
      opt.maxBodyBytes < (runSink opt frags ([], false)).1.length +
        (frags.get ⟨i, hi⟩).length) := by
  have h := runSink_spec opt hk frags ([], false) rfl (by simp)
  simpa using h

/-- A three-byte cap for the concrete sink witness. -/
def c2Options : Options := { maxBodyBytes := 3 }

/-- Fragments overflowing the three-byte cap on the second fragment. -/
def c2Frags : List Bytes := [['a', 'b'], ['c', 'd']]

/-- Witness for C2 at a concrete overflowing delivery. -/
theorem bodySink_cap_witness :
    (runSink c2Options c2Frags ([], false)).1.length ≤ c2Options.maxBodyBytes :=
  (bodySink_cap c2Options c2Frags rfl).1

/-! ## C10: stream-only mode accepts everything unconditionally -/

/-- With keep-body off, the default sink accepts any fragment and leaves
its state untouched. -/
theorem onBodyChunk_streamOnly (opt : Options) (hk : opt.keepBody = false) :
    ∀ (s : Bytes × Bool) (data : Bytes), onBodyChunk opt s data = (s, true) := by
  intro s data
  unfold onBodyChunk
  rw [if_pos hk]

/-- The bulk-read loop under a sink that accepts everything without
changing state never aborts and keeps the sink state. -/
theorem bulkRead_inert_aux {σ : Type} (sink : σ → Bytes → σ × Bool)
    (hs : ∀ (s : σ) d, sink s d = (s, true)) (bufSz : Nat) :
    ∀ n rem (s : σ) (input : Bytes), input.length ≤ n →
      (bulkRead sink bufSz rem s input).s = s ∧
        (bulkRead sink bufSz rem s input).aborted = false := by
  intro n
  induction n with
  | zero =>
    intro rem s input hlen
    have hnil : input = [] := List.eq_nil_of_length_eq_zero (Nat.le_zero.mp hlen)
    subst hnil
    unfold bulkRead
    split
    · exact ⟨rfl, rfl⟩
    · split
      · exact ⟨rfl, rfl⟩
      · rename_i h
        simp at h
  | succ n ih =>
    intro rem s input hlen
    unfold bulkRead
    split
    · exact ⟨rfl, rfl⟩
    · split
      · exact ⟨rfl, rfl⟩
      · rename_i hrem h
        have h2 : (input.drop (min rem bufSz)).length ≤ n := by
          simp only [List.length_take] at h
          simp only [List.length_drop]
          omega
        have hrec := ih (rem - (input.take (min rem bufSz)).length) s
          (input.drop (min rem bufSz)) h2
        dsimp only
        rw [hs]
        simpa using hrec

/-- Inert-sink version of the bulk-read bound. -/
theorem bulkRead_inert {σ : Type} (sink : σ → Bytes → σ × Bool)
    (hs : ∀ (s : σ) d, sink s d = (s, true)) (bufSz rem : Nat) (s : σ)
    (input : Bytes) :
    (bulkRead sink bufSz rem s input).s = s ∧
      (bulkRead sink bufSz rem s input).aborted = false :=
  bulkRead_inert_aux sink hs bufSz input.length rem s input le_rfl

/-- The chunked-decoder loop under a sink that accepts everything without
changing state keeps the sink state and never reports a sink abort. -/
theorem chunkedLoop_inert_aux {σ : Type} (sink : σ → Bytes → σ × Bool)
    (hs : ∀ (s : σ) d, sink s d = (s, true)) (bufSz : Nat) :
    ∀ n (input : Bytes), input.length ≤ n → ∀ cs cl rem (s : σ),
      (chunkedLoop sink bufSz cs cl rem s input).s = s ∧
        ¬(chunkedLoop sink bufSz cs cl rem s input).error = some .sinkAbort := by
  intro n
  induction n with
  | zero =>
    intro input hlen cs cl rem s
    have hnil : input = [] := List.eq_nil_of_length_eq_zero (Nat.le_zero.mp hlen)
    subst hnil
    rw [chunkedLoop_nil]
    exact ⟨rfl, by simp⟩
  | succ n ih =>
    intro input hlen cs cl rem s
    match input with
    | [] =>
      rw [chunkedLoop_nil]
      exact ⟨rfl, by simp⟩
    | ch :: rest =>
      have hrest : rest.length ≤ n := by
        simp only [List.length_cons] at hlen
        omega
      match cs with
      | .CHUNK_SIZE =>
        by_cases hch : ch = '\n'
        · subst hch
          rw [chunkedLoop_size_nl]
          split
          · exact ih rest hrest _ _ _ s
          · exact ih rest hrest _ _ _ s
        · rw [chunkedLoop_size_char sink bufSz cl rem s ch rest hch]
          split
          · exact ⟨rfl, by simp⟩
          · exact ih rest hrest _ _ _ s
      | .CHUNK_DATA =>
        rw [chunkedLoop_data_cons]
        rw [hs]
        have hb := bulkRead_inert sink hs bufSz (rem - 1) s rest
        have hlef := bulkRead_leftover_le sink bufSz (rem - 1) s rest
        simp only [hb.1, hb.2]
        have hrec := ih (bulkRead sink bufSz (rem - 1) s rest).leftover
          (le_trans hlef hrest) (if (bulkRead sink bufSz (rem - 1) s rest).rem = 0 then
            .CHUNK_CRLF else .CHUNK_DATA) cl (bulkRead sink bufSz (rem - 1) s rest).rem s
        simpa using hrec
      | .CHUNK_CRLF =>
        rw [chunkedLoop_crlf_cons]
        exact ih rest hrest _ _ _ s
      | .CHUNK_DONE =>
        rw [chunkedLoop_done_cons]
        exact ih rest hrest _ _ _ s

/-- Inert-sink invariant of the chunked-decoder loop. -/
theorem chunkedLoop_inert {σ : Type} (sink : σ → Bytes → σ × Bool)
    (hs : ∀ (s : σ) d, sink s d = (s, true)) (bufSz : Nat) (cs : ChunkState)
    (cl : Bytes) (rem : Nat) (s : σ) (input : Bytes) :
    (chunkedLoop sink bufSz cs cl rem s input).s = s ∧
      ¬(chunkedLoop sink bufSz cs cl rem s input).error = some .sinkAbort :=
  chunkedLoop_inert_aux sink hs bufSz input.length input le_rfl cs cl rem s

/-- The non-chunked body loop with keep-body off keeps the sink state and
never aborts. -/
theorem bodyLoop_streamOnly_aux (opt : Options) (hk : opt.keepBody = false)
    (bufSz : Nat) :
    ∀ n (input : Bytes) (s : Bytes × Bool), input.length ≤ n →
      (bodyLoop opt bufSz input s).1 = s ∧ (bodyLoop opt bufSz input s).2.2 = false := by
  intro n
  induction n with
  | zero =>
    intro input s hlen
    have hnil : input = [] := List.eq_nil_of_length_eq_zero (Nat.le_zero.mp hlen)
    subst hnil
    unfold bodyLoop
    simp
  | succ n ih =>
    intro input s hlen
    unfold bodyLoop
    split
    · exact ⟨rfl, rfl⟩
    · split
      · exact ⟨rfl, rfl⟩
      · rename_i hne h
        have h2 : (input.drop bufSz).length ≤ n := by
          simp only [List.length_take] at h
          simp only [List.length_drop]
          omega
        have hrec := ih (input.drop bufSz) s h2
        dsimp only
        rw [onBodyChunk_streamOnly opt hk]
        simpa using hrec

/-- C10: with keep-body off, the default sink accepts every fragment
unconditionally and untouched, so a READ_BODY step (either decoder) leaves
the body accumulator and the overflow flag unchanged and can never raise
the body-size-cap error. -/
theorem streamOnly_sink_unconditional (opt : Options) (e : Engine)
    (hk : opt.keepBody = false) (hk2 : e.opt.keepBody = false) :
    (∀ (s : Bytes × Bool) (data : Bytes), onBodyChunk opt s data = (s, true)) ∧
    (stepReadBody e).body = e.body ∧
    (stepReadBody e).bodyOverflow = e.bodyOverflow ∧
    (¬e.err = "body exceeded maxBodyBytes" →
      ¬(stepReadBody e).err = "body exceeded maxBodyBytes") := by
  have hinert := onBodyChunk_streamOnly e.opt hk2
  refine ⟨onBodyChunk_streamOnly opt hk, ?_⟩
  unfold stepReadBody
  split
  · exact ⟨rfl, rfl, fun h => h⟩
  · split
    · -- chunked path
      unfold stepReadChunkedBody
      have hc := chunkedLoop_inert (onBodyChunk e.opt) hinert (min e.opt.ioChunkSize 768)
        e.chunkState e.chunkLine e.chunkRemaining (e.body, e.bodyOverflow) e.client.input
      dsimp only
      split
      · rename_i heq
        rw [heq] at hc
        refine ⟨by simp [fail, hc.1], by simp [fail, hc.1], fun _ => ?_⟩
        exact (by decide : ¬"chunk size line too long" = "body exceeded maxBodyBytes")
      · rename_i heq
        rw [heq] at hc
        exact absurd rfl hc.2
      · split
        · exact ⟨by simp [Client.stop, hc.1], by simp [Client.stop, hc.1],
            fun h => by simpa using h⟩
        · exact ⟨by simp [hc.1], by simp [hc.1], fun h => by simpa using h⟩
    · -- non-chunked path
      have hb := bodyLoop_streamOnly_aux e.opt hk2 (min e.opt.ioChunkSize 768)
        e.client.input.length e.client.input (e.body, e.bodyOverflow) le_rfl
      dsimp only
      split
      · rename_i habort
        rw [hb.2] at habort
        cases habort
      · split
        · exact ⟨by simp [Client.stop, hb.1], by simp [Client.stop, hb.1],
            fun h => by simpa using h⟩
        · exact ⟨by simp [hb.1], by simp [hb.1], fun h => by simpa using h⟩

/-- Stream-only engine sitting in READ_BODY with buffered input. -/
def c10Engine : Engine :=
  { opt := { keepBody := false }, state := .READ_BODY, seenHeaderEnd := true,
    client := { connected := true, input := ['x', 'y'] } }

/-- Witness for C10 at a concrete stream-only engine. -/
theorem streamOnly_sink_unconditional_witness :
    (stepReadBody c10Engine).body = c10Engine.body ∧
      (stepReadBody c10Engine).bodyOverflow = c10Engine.bodyOverflow :=
  ⟨(streamOnly_sink_unconditional c10Engine.opt c10Engine rfl rfl).2.1,
    (streamOnly_sink_unconditional c10Engine.opt c10Engine rfl rfl).2.2.1⟩

/-! ## C5: body completion ignores Content-Length -/

/-- With a positive buffer size, a non-aborting run of the body loop
consumes every available byte. -/
theorem bodyLoop_drain_aux (opt : Options) (bufSz : Nat) (hb : 0 < bufSz) :
    ∀ n (input : Bytes) (s : Bytes × Bool), input.length ≤ n →
      (bodyLoop opt bufSz input s).2.2 = false →
      (bodyLoop opt bufSz input s).2.1 = [] := by
  intro n
  induction n with
  | zero =>
    intro input s hlen _
    have hnil : input = [] := List.eq_nil_of_length_eq_zero (Nat.le_zero.mp hlen)
    subst hnil
    unfold bodyLoop
    simp
  | succ n ih =>
    intro input s hlen
    unfold bodyLoop
    split
    · intro _; rfl
    · split
      · rename_i hne h
        exfalso
        simp only [List.length_take] at h
        omega
      · rename_i hne h
        dsimp only
        split
        · intro hab
          exact ih _ _ (by simp only [List.length_drop]; omega) hab
        · intro hab
          simp at hab

/-- Non-aborting drain of the body loop. -/
theorem bodyLoop_drain (opt : Options) (bufSz : Nat) (hb : 0 < bufSz)
    (input : Bytes) (s : Bytes × Bool)
    (hab : (bodyLoop opt bufSz input s).2.2 = false) :
    (bodyLoop opt bufSz input s).2.1 = [] :=
  bodyLoop_drain_aux opt bufSz hb input.length input s le_rfl hab

/-- The chunked body step never reads the parsed Content-Length. -/
theorem stepReadChunkedBody_cl (e : Engine) (x : Int) :
    stepReadChunkedBody { e with contentLength := x } =
      { stepReadChunkedBody e with contentLength := x } := by
  cases e
  unfold stepReadChunkedBody
  dsimp only
  split
  · rfl
  · rfl
  · split
    · rfl
    · rfl

/-- The whole READ_BODY step never reads the parsed Content-Length: running
it with any stored Content-Length gives the same engine apart from that
stored field. -/
theorem stepReadBody_cl (e : Engine) (x : Int) :
    stepReadBody { e with contentLength := x } =
      { stepReadBody e with contentLength := x } := by
  cases e with
  | mk cli opt mth st ho po pa hca ne ht rq ln er bd bo hst hby cln chk se tz cst chl crm =>
    unfold stepReadBody
    dsimp only
    split
    · rfl
    · split
      · exact stepReadChunkedBody_cl
          (Engine.mk cli opt mth st ho po pa hca ne ht rq ln er bd bo hst hby cln chk se tz
            cst chl crm) x
      · try dsimp only
        split
        · rfl
        · split
          · rfl
          · rfl

/-- C5: for the non-chunked decoder, DONE is decided solely by the stream
being closed once the available bytes are drained — equivalently, the step
reaches DONE exactly when the stream reports not connected — and the stored
Content-Length is never consulted: changing it changes nothing else in the
outcome of the step. -/
theorem readBody_ignores_contentLength (e : Engine) (x : Int)
    (hs : e.state = .READ_BODY) (h1 : e.seenHeaderEnd = true) (h2 : e.chunked = false)
    (hio : 0 < e.opt.ioChunkSize)
    (hab : (bodyLoop e.opt (min e.opt.ioChunkSize 768) e.client.input
      (e.body, e.bodyOverflow)).2.2 = false) :
    ((stepReadBody e).state = .DONE ↔ e.client.connected = false) ∧
    stepReadBody { e with contentLength := x } =
      { stepReadBody e with contentLength := x } := by
  refine ⟨?_, stepReadBody_cl e x⟩
  have hleft := bodyLoop_drain e.opt (min e.opt.ioChunkSize 768)
    (by omega) e.client.input (e.body, e.bodyOverflow) hab
  unfold stepReadBody
  rw [if_neg (by simp [h1]), if_neg (by simp [h2])]
  dsimp only
  rw [if_neg (by simp [hab])]
  by_cases hcon : e.client.connected = false
  · rw [if_pos ⟨by simpa using hcon, by simpa using hleft⟩]
    simpa using hcon
  · rw [if_neg (by simp; intro hc; exact absurd hc hcon)]
    constructor
    · intro hd
      exfalso
      rw [hs] at hd
      simp at hd
    · intro hc
      exact absurd hc hcon

/-- Closed engine in READ_BODY with two buffered body bytes. -/
def c5Engine : Engine :=
  { state := .READ_BODY, seenHeaderEnd := true,
    client := { connected := false, input := ['o', 'k'] } }

/-- Witness for C5 at a concrete closed stream. -/
theorem readBody_ignores_contentLength_witness :
    ((stepReadBody c5Engine).state = .DONE ↔ c5Engine.client.connected = false) ∧
      stepReadBody { c5Engine with contentLength := 5 } =
        { stepReadBody c5Engine with contentLength := 5 } :=
  readBody_ignores_contentLength c5Engine 5 rfl rfl rfl (by decide)
    (by unfold bodyLoop; simp [onBodyChunk, c5Engine]; unfold bodyLoop; simp)

/-! ## C6: POST serialization carries an exact Content-Length -/

/-- Header block of the serialized request before the entity headers:
request line, Host, fixed headers, and the caller's extra header lines with
the forgiving terminator. -/
def requestHead (m : Method) (host path extraHeaders : Bytes) : Bytes :=
  (if m = .M_GET then "GET ".data else "POST ".data) ++ path ++ " HTTP/1.1\r\nHost: ".data ++
    host ++ "\r\nUser-Agent: esp-secure/1.0\r\nAccept: */*\r\nConnection: close\r\n".data ++
    (if extraHeaders.length > 0 then
       extraHeaders ++ (if ("\r\n".data).isSuffixOf extraHeaders then [] else "\r\n".data)
     else [])

/-- C6: every serialized POST request is the header block followed by the
Content-Type line, a Content-Length value of exactly the body byte length,
the header-terminating blank line, and then the body bytes unchanged. -/
theorem post_contentLength_exact (host path body ct extra : Bytes) :
    buildRequest .M_POST host path body ct extra =
      requestHead .M_POST host path extra ++ "Content-Type: ".data ++ ct ++
        "\r\nContent-Length: ".data ++ natDec body.length ++ "\r\n\r\n".data ++ body := by
  unfold buildRequest requestHead
  simp [List.append_assoc]

/-! ## C7: Content-Length parsing is whitespace- and case-insensitive -/

/-- Number of decimal digits (0 for 0). -/
def decLen (n : Nat) : Nat :=
  if h : n = 0 then 0 else decLen (n / 10) + 1
termination_by n
decreasing_by exact Nat.div_lt_self (Nat.pos_of_ne_zero h) (by decide)

/-- The decimal digit characters parse back to their values. -/
theorem digitVal?_digitChar (d : Nat) (hd : d < 10) : digitVal? (digitChar d) = some d := by
  interval_cases d <;> decide

/-- Character facts about decimal digit characters. -/
theorem digitChar_facts (d : Nat) (hd : d < 10) :
    isSpaceB (digitChar d) = false ∧ ¬digitChar d = '-' ∧ ¬digitChar d = '+' := by
  interval_cases d <;> decide

/-- Every character produced by the decimal renderer is a digit character. -/
theorem natDecAux_mem (n : Nat) :
    ∀ acc c, c ∈ natDecAux n acc → (∃ d, d < 10 ∧ c = digitChar d) ∨ c ∈ acc := by
  induction n using Nat.strong_induction_on with
  | _ n ih =>
    intro acc c hc
    rw [natDecAux] at hc
    split at hc
    · exact Or.inr hc
    · rename_i h
      rcases ih (n / 10) (Nat.div_lt_self (Nat.pos_of_ne_zero h) (by decide)) _ c hc with
        hd | hmem
      · exact Or.inl hd
      · rcases List.mem_cons.mp hmem with hhd | htl
        · exact Or.inl ⟨n % 10, Nat.mod_lt _ (by decide), hhd⟩
        · exact Or.inr htl

/-- Every character of a rendered decimal number is a digit character. -/
theorem natDec_mem (n : Nat) (c : Char) (hc : c ∈ natDec n) :
    ∃ d, d < 10 ∧ c = digitChar d := by
  unfold natDec at hc
  split at hc
  · exact ⟨0, by decide, by simpa [digitChar] using hc⟩
  · rcases natDecAux_mem n [] c hc with hd | hf
    · exact hd
    · cases hf

/-- The rendered decimal number is never empty and starts with a digit. -/
theorem natDec_head (n : Nat) : ∃ d t, d < 10 ∧ natDec n = digitChar d :: t := by
  unfold natDec
  split
  · exact ⟨0, [], by decide, by norm_num [digitChar]⟩
  · rename_i h
    suffices hgen : ∀ m, m ≠ 0 → ∀ acc, ∃ d t, d < 10 ∧ natDecAux m acc = digitChar d :: t by
      exact hgen n h []
    intro m
    induction m using Nat.strong_induction_on with
    | _ m ih =>
      intro hm acc
      rw [natDecAux, dif_neg hm]
      by_cases h10 : m / 10 = 0
      · rw [natDecAux, dif_pos h10]
        exact ⟨m % 10, acc, Nat.mod_lt _ (by decide), rfl⟩
      · exact ih (m / 10) (Nat.div_lt_self (Nat.pos_of_ne_zero hm) (by decide)) h10 _

/-- One digit step of the greedy decimal parser. -/
theorem atolDigits_cons_digit (c : Char) (d : Nat) (hcd : digitVal? c = some d)
    (rest : Bytes) (a : Nat) :
    atolDigits (c :: rest) a = atolDigits rest (a * 10 + d) := by
  have h1 : atolDigits (c :: rest) a = match digitVal? c with
      | some x => atolDigits rest (a * 10 + x)
      | none => a := rfl
  rw [h1, hcd]

/-- Parsing the rendered digits after any accumulator shift. -/
theorem atolDigits_natDecAux (n : Nat) :
    ∀ acc a, atolDigits (natDecAux n acc) a = atolDigits acc (a * 10 ^ decLen n + n) := by
  induction n using Nat.strong_induction_on with
  | _ n ih =>
    intro acc a
    by_cases h : n = 0
    · rw [natDecAux, decLen]
      simp [h]
    · rw [natDecAux, dif_neg h, decLen, dif_neg h]
      rw [ih (n / 10) (Nat.div_lt_self (Nat.pos_of_ne_zero h) (by decide))]
      rw [atolDigits_cons_digit (digitChar (n % 10)) (n % 10)
        (digitVal?_digitChar (n % 10) (Nat.mod_lt _ (by decide))) acc]
      congr 1
      rw [pow_succ, ← mul_assoc]
      omega

/-- Decimal round trip: parsing the rendered number gives it back. -/
theorem atolDigits_natDec (n : Nat) : atolDigits (natDec n) 0 = n := by
  unfold natDec
  by_cases h : n = 0
  · subst h; decide
  · rw [if_neg h, atolDigits_natDecAux n [] 0]
    simp [atolDigits]

/-- A character whose lowercase form is not whitespace is not whitespace. -/
theorem isSpaceB_of_lowerC (a : Char) (ha : isSpaceB (lowerC a) = false) :
    isSpaceB a = false := by
  by_contra hcon
  have ha2 : isSpaceB a = true := by simpa using hcon
  simp only [isSpaceB, Bool.or_eq_true, decide_eq_true_eq] at ha2
  rcases ha2 with ((((h | h) | h) | h) | h) | h <;> subst h <;> exact absurd ha (by decide)

/-- Dropping whitespace walks through an all-whitespace block. -/
theorem dropWhile_append_spaces (ws l : Bytes) (hws : ∀ c ∈ ws, isSpaceB c = true) :
    (ws ++ l).dropWhile isSpaceB = l.dropWhile isSpaceB := by
  induction ws with
  | nil => simp
  | cons a t ih =>
    simp only [List.cons_append, List.dropWhile_cons]
    rw [if_pos (hws a (by simp))]
    exact ih (fun c hc => hws c (by simp [hc]))

/-- Trimming a value that starts and ends with non-whitespace only removes
the surrounding whitespace. -/
theorem trimB_sandwich (d w1 w2 : Bytes)
    (hw1 : ∀ c ∈ w1, isSpaceB c = true) (hw2 : ∀ c ∈ w2, isSpaceB c = true)
    (hhead : ∃ a t, d = a :: t ∧ isSpaceB a = false)
    (hlast : ∃ ys z, d = ys ++ [z] ∧ isSpaceB z = false) :
    trimB (w1 ++ d ++ w2) = d := by
  obtain ⟨a, t, hat, ha⟩ := hhead
  obtain ⟨ys, z, hyz, hz⟩ := hlast
  unfold trimB
  have h1 : (w1 ++ d ++ w2).dropWhile isSpaceB = d ++ w2 := by
    rw [List.append_assoc, dropWhile_append_spaces w1 _ hw1, hat]
    simp [List.dropWhile_cons, ha]
  rw [h1]
  have h2 : ((d ++ w2).reverse).dropWhile isSpaceB = d.reverse := by
    rw [List.reverse_append,
      dropWhile_append_spaces _ _ (fun c hc => hw2 c (List.mem_reverse.mp hc)), hyz,
      List.reverse_append]
    simp [List.dropWhile_cons, hz]
  rw [h2, List.reverse_reverse]

/-- A string whose lowercase form matches the lowercase of the candidate
head passes the case-insensitive prefix test with anything appended. -/
theorem startsWithNoCase_of_lower (p : Bytes) :
    ∀ (s t : Bytes), s.map lowerC = p.map lowerC → startsWithNoCase (s ++ t) p = true := by
  induction p with
  | nil =>
    intro s t h
    have hs : s = [] := by simpa using h
    subst hs
    cases t <;> rfl
  | cons b pt ih =>
    intro s t h
    cases s with
    | nil => simp at h
    | cons a st =>
      simp only [List.map_cons, List.cons.injEq] at h
      show ((lowerC a == lowerC b) && startsWithNoCase (st ++ t) pt) = true
      rw [h.1, ih st t h.2]
      simp

/-- Parsing a rendered decimal number with the full toInt pipeline. -/
theorem atolB_natDec (n : Nat) : atolB (natDec n) = (n : Int) := by
  obtain ⟨d0, t0, hd0, hnd⟩ := natDec_head n
  have hfacts := digitChar_facts d0 hd0
  unfold atolB
  rw [hnd, List.dropWhile_cons, if_neg (by rw [hfacts.1]; exact Bool.false_ne_true)]
  dsimp only
  rw [if_neg hfacts.2.1, if_neg hfacts.2.2, ← hnd, atolDigits_natDec]

/-- C7: a header line built from any case variant of Content-Length, any
whitespace after the colon, any rendered value and any trailing whitespace
or line-terminator bytes parses to exactly that value, after the trim the
byte loop applies before dispatch. -/
theorem contentLength_parse_insensitive (h : HdrState) (n : Nat) (name w1 w2 : Bytes)
    (hname : name.map lowerC = "content-length:".data)
    (hw1 : ∀ c ∈ w1, isSpaceB c = true) (hw2 : ∀ c ∈ w2, isSpaceB c = true)
    (hn : n < 2 ^ 31) :
    (dispatchLine h (trimB (name ++ w1 ++ natDec n ++ w2))).contentLength = (n : Int) := by
  have hlen : name.length = ("Content-Length:".data).length := by
    rw [← List.length_map name lowerC, hname]
    decide
  cases name with
  | nil => exact absurd hname (by decide)
  | cons a nt =>
    rw [show "content-length:".data = 'c' :: "ontent-length:".data from by decide] at hname
    simp only [List.map_cons, List.cons.injEq] at hname
    have hca : lowerC a = 'c' := hname.1
    have hans : isSpaceB a = false := isSpaceB_of_lowerC a (by rw [hca]; decide)
    obtain ⟨d0, t0, hd0, hnd⟩ := natDec_head n
    have hd0f := digitChar_facts d0 hd0
    have hndne : ¬natDec n = [] := by rw [hnd]; simp
    have hlast : (natDec n).dropLast ++ [(natDec n).getLast hndne] = natDec n :=
      List.dropLast_append_getLast hndne
    have hzmem : (natDec n).getLast hndne ∈ natDec n := List.getLast_mem hndne
    obtain ⟨dz, hdz, hdzc⟩ := natDec_mem n _ hzmem
    have hzns : isSpaceB ((natDec n).getLast hndne) = false := by
      rw [hdzc]; exact (digitChar_facts dz hdz).1
    have htrim : trimB ((a :: nt) ++ w1 ++ natDec n ++ w2) = (a :: nt) ++ w1 ++ natDec n := by
      have hs := trimB_sandwich ((a :: nt) ++ w1 ++ natDec n) [] w2 (by simp) hw2
        ⟨a, nt ++ w1 ++ natDec n, by simp, hans⟩
        ⟨(a :: nt) ++ w1 ++ (natDec n).dropLast, (natDec n).getLast hndne,
          by (conv_lhs => rw [← hlast]); simp [List.append_assoc], hzns⟩
      simpa using hs
    rw [htrim]
    unfold dispatchLine
    rw [if_neg ?hstatus, if_pos ?hcl]
    case hstatus =>
      rintro ⟨hp, -⟩
      rw [show "HTTP/1.1".data = 'H' :: "TTP/1.1".data from by decide] at hp
      simp only [List.cons_append, List.isPrefixOf, Bool.and_eq_true, beq_iff_eq] at hp
      have : a = 'H' := hp.1.symm
      rw [this] at hca
      exact absurd hca (by decide)
    case hcl =>
      have hm : (a :: nt).map lowerC = ("Content-Length:".data).map lowerC := by
        simp only [List.map_cons]
        rw [hname.1, hname.2]
        decide
      have := startsWithNoCase_of_lower ("Content-Length:".data) (a :: nt)
        (w1 ++ natDec n) hm
      simpa [List.append_assoc] using this
    show atolB (trimB (((a :: nt) ++ w1 ++ natDec n).drop ("Content-Length:".data).length))
        = (n : Int)
    rw [← hlen, List.append_assoc, List.drop_left]
    have htrim2 : trimB (w1 ++ natDec n) = natDec n := by
      have hs := trimB_sandwich (natDec n) w1 [] hw1 (by simp)
        ⟨digitChar d0, t0, hnd, hd0f.1⟩
        ⟨(natDec n).dropLast, (natDec n).getLast hndne, hlast.symm, hzns⟩
      simpa using hs
    rw [htrim2, atolB_natDec]

/-- Witness for C7: the spec's two example spacings, one with a mixed-case
name, both parse to 42. -/
theorem contentLength_parse_insensitive_witness :
    (dispatchLine {} (trimB ("Content-Length:".data ++ [' ', ' '] ++ natDec 42 ++
        [' ', '\r', '\n']))).contentLength = (42 : Int) ∧
    (dispatchLine {} (trimB ("content-LENGTH:".data ++ [] ++ natDec 42 ++
        ['\r', '\n']))).contentLength = (42 : Int) :=
  ⟨contentLength_parse_insensitive {} 42 ("Content-Length:".data) [' ', ' ']
      [' ', '\r', '\n'] (by decide) (by decide) (by decide) (by decide),
    contentLength_parse_insensitive {} 42 ("content-LENGTH:".data) [] ['\r', '\n']
      (by decide) (by decide) (by decide) (by decide)⟩

/-! ## C1: chunked decoding round-trips the encoder -/

/-- Number of hexadecimal digits (0 for 0). -/
def hexLen (n : Nat) : Nat :=
  if h : n = 0 then 0 else hexLen (n / 16) + 1
termination_by n
decreasing_by exact Nat.div_lt_self (Nat.pos_of_ne_zero h) (by decide)

/-- The hexadecimal digit characters parse back to their values. -/
theorem hexDigitVal_hexDigitChar (d : Nat) (hd : d < 16) :
    hexDigitVal (hexDigitChar d) = some d := by
  interval_cases d <;> decide

/-- Character facts about hexadecimal digit characters. -/
theorem hexDigitChar_facts (d : Nat) (hd : d < 16) :
    isSpaceB (hexDigitChar d) = false ∧ ¬hexDigitChar d = ';' ∧ ¬hexDigitChar d = '\n' ∧
      ¬hexDigitChar d = '-' ∧ ¬hexDigitChar d = '+' ∧ (d = 0 ∨ ¬hexDigitChar d = '0') := by
  interval_cases d <;> decide

/-- Every character produced by the hexadecimal renderer is a hex digit. -/
theorem natToHexAux_mem (n : Nat) :
    ∀ acc c, c ∈ natToHexAux n acc → (∃ d, d < 16 ∧ c = hexDigitChar d) ∨ c ∈ acc := by
  induction n using Nat.strong_induction_on with
  | _ n ih =>
    intro acc c hc
    rw [natToHexAux] at hc
    split at hc
    · exact Or.inr hc
    · rename_i h
      rcases ih (n / 16) (Nat.div_lt_self (Nat.pos_of_ne_zero h) (by decide)) _ c hc with
        hd | hmem
      · exact Or.inl hd
      · rcases List.mem_cons.mp hmem with hhd | htl
        · exact Or.inl ⟨n % 16, Nat.mod_lt _ (by decide), hhd⟩
        · exact Or.inr htl

/-- Every character of a rendered hexadecimal number is a hex digit. -/
theorem natToHex_mem (n : Nat) (c : Char) (hc : c ∈ natToHex n) :
    ∃ d, d < 16 ∧ c = hexDigitChar d := by
  unfold natToHex at hc
  split at hc
  · exact ⟨0, by decide, by simpa [hexDigitChar] using hc⟩
  · rcases natToHexAux_mem n [] c hc with hd | hf
    · exact hd
    · cases hf

/-- The rendered hexadecimal number of a non-zero value starts with a
non-zero hex digit. -/
theorem natToHex_head_ne_zero (n : Nat) (hn : ¬n = 0) :
    ∃ d t, d < 16 ∧ ¬d = 0 ∧ natToHex n = hexDigitChar d :: t := by
  unfold natToHex
  rw [if_neg hn]
  suffices hgen : ∀ m, m ≠ 0 → ∀ acc, ∃ d t, d < 16 ∧ ¬d = 0 ∧
      natToHexAux m acc = hexDigitChar d :: t from hgen n hn []
  intro m
  induction m using Nat.strong_induction_on with
  | _ m ih =>
    intro hm acc
    rw [natToHexAux, dif_neg hm]
    by_cases h16 : m / 16 = 0
    · rw [natToHexAux, dif_pos h16]
      refine ⟨m % 16, acc, Nat.mod_lt _ (by decide), ?_, rfl⟩
      have hmlt : m < 16 := by omega
      rw [Nat.mod_eq_of_lt hmlt]
      exact hm
    · exact ih (m / 16) (Nat.div_lt_self (Nat.pos_of_ne_zero hm) (by decide)) h16 _

/-- The rendered hexadecimal number is never empty and starts with a digit. -/
theorem natToHex_head (n : Nat) : ∃ d t, d < 16 ∧ natToHex n = hexDigitChar d :: t := by
  by_cases h : n = 0
  · subst h
    exact ⟨0, [], by decide, by norm_num [natToHex, hexDigitChar]⟩
  · obtain ⟨d, t, hd, _, ht⟩ := natToHex_head_ne_zero n h
    exact ⟨d, t, hd, ht⟩

/-- Length of the hexadecimal renderer output. -/
theorem natToHexAux_length (n : Nat) :
    ∀ acc, (natToHexAux n acc).length = hexLen n + acc.length := by
  induction n using Nat.strong_induction_on with
  | _ n ih =>
    intro acc
    by_cases h : n = 0
    · rw [natToHexAux, hexLen]
      simp [h]
    · rw [natToHexAux, dif_neg h, hexLen, dif_neg h,
        ih (n / 16) (Nat.div_lt_self (Nat.pos_of_ne_zero h) (by decide))]
      simp
      omega

/-- Digit-count bound: below 16 ^ k there are at most k hex digits. -/
theorem hexLen_le (k : Nat) : ∀ n, n < 16 ^ k → hexLen n ≤ k := by
  induction k with
  | zero =>
    intro n hn
    have : n = 0 := by simpa using hn
    subst this
    rw [hexLen]
    simp
  | succ k ih =>
    intro n hn
    by_cases h : n = 0
    · rw [hexLen]; simp [h]
    · rw [hexLen, dif_neg h]
      have : n / 16 < 16 ^ k := by
        rw [Nat.div_lt_iff_lt_mul (by decide)]
        calc n < 16 ^ (k + 1) := hn
        _ = 16 ^ k * 16 := by rw [pow_succ]
      exact Nat.succ_le_succ (ih (n / 16) this)

/-- One digit step of the greedy hexadecimal parser. -/
theorem strtoul16Core_cons_digit (c : Char) (d : Nat) (hcd : hexDigitVal c = some d)
    (rest : Bytes) (a : Nat) :
    strtoul16Core (c :: rest) a = strtoul16Core rest (a * 16 + d) := by
  have h1 : strtoul16Core (c :: rest) a = match hexDigitVal c with
      | some x => strtoul16Core rest (a * 16 + x)
      | none => a := rfl
  rw [h1, hcd]

/-- Parsing the rendered hex digits after any accumulator shift. -/
theorem strtoul16Core_natToHexAux (n : Nat) :
    ∀ acc a, strtoul16Core (natToHexAux n acc) a =
      strtoul16Core acc (a * 16 ^ hexLen n + n) := by
  induction n using Nat.strong_induction_on with
  | _ n ih =>
    intro acc a
    by_cases h : n = 0
    · rw [natToHexAux, hexLen]
      simp [h]
    · rw [natToHexAux, dif_neg h, hexLen, dif_neg h]
      rw [ih (n / 16) (Nat.div_lt_self (Nat.pos_of_ne_zero h) (by decide))]
      rw [strtoul16Core_cons_digit (hexDigitChar (n % 16)) (n % 16)
        (hexDigitVal_hexDigitChar (n % 16) (Nat.mod_lt _ (by decide))) acc]
      congr 1
      rw [pow_succ, ← mul_assoc]
      omega

/-- Hex round trip: parsing the rendered hex digits gives the value back. -/
theorem strtoul16Core_natToHex (n : Nat) : strtoul16Core (natToHex n) 0 = n := by
  unfold natToHex
  by_cases h : n = 0
  · subst h; decide
  · rw [if_neg h, strtoul16Core_natToHexAux n [] 0]
    simp [strtoul16Core]

/-- Full strtoul round trip for values below 2 ^ 32. -/
theorem strtoul16_natToHex (n : Nat) (hn : n < 2 ^ 32) : strtoul16 (natToHex n) = n := by
  by_cases h0 : n = 0
  · subst h0; decide
  · obtain ⟨d, t, hd, hdne, hnt⟩ := natToHex_head_ne_zero n h0
    have hfacts := hexDigitChar_facts d hd
    unfold strtoul16
    rw [hnt, List.dropWhile_cons, if_neg (by rw [hfacts.1]; exact Bool.false_ne_true)]
    dsimp only
    rw [if_neg hfacts.2.2.2.1, if_neg hfacts.2.2.2.2.1]
    have hskip : skipHexMark (hexDigitChar d :: t) = hexDigitChar d :: t := by
      cases t with
      | nil => rfl
      | cons b tb =>
        unfold skipHexMark
        dsimp only
        rw [if_neg]
        rintro ⟨hzero, -⟩
        rcases hfacts.2.2.2.2.2 with hz | hz
        · exact hdne hz
        · exact hz hzero
    rw [hskip, ← hnt, strtoul16Core_natToHex]
    omega

/-- takeWhile keeps a list all of whose elements satisfy the predicate. -/
theorem takeWhile_eq_self_of_all (p : Char → Bool) :
    ∀ (l : Bytes), (∀ c ∈ l, p c = true) → l.takeWhile p = l := by
  intro l
  induction l with
  | nil => simp
  | cons a t ih =>
    intro hall
    rw [List.takeWhile_cons, if_pos (hall a (by simp))]
    rw [ih (fun c hc => hall c (by simp [hc]))]

/-- With a zero buffer size, the bulk read is a no-op break. -/
theorem bulkRead_zero {σ : Type} (sink : σ → Bytes → σ × Bool) (rem : Nat) (s : σ)
    (input : Bytes) : bulkRead sink 0 rem s input = ⟨s, rem, input, false⟩ := by
  unfold bulkRead
  split
  · rfl
  · split
    · rfl
    · rename_i h
      simp at h

/-- With a positive buffer size, the bulk read collects exactly the declared
bytes when they are all available, leaving the rest. -/
theorem bulkRead_collect_aux (bufSz : Nat) (hb : 0 < bufSz) :
    ∀ n (xs : Bytes), xs.length ≤ n → ∀ (s rest : Bytes),
      bulkRead collectSink bufSz xs.length s (xs ++ rest) = ⟨s ++ xs, 0, rest, false⟩ := by
  intro n
  induction n with
  | zero =>
    intro xs hlen s rest
    have hnil : xs = [] := List.eq_nil_of_length_eq_zero (Nat.le_zero.mp hlen)
    subst hnil
    unfold bulkRead
    simp
  | succ n ih =>
    intro xs hlen s rest
    match xs with
    | [] =>
      unfold bulkRead
      simp
    | x :: xt =>
      have hxl : (x :: xt).length = xt.length + 1 := rfl
      have hw1 : 1 ≤ min (x :: xt).length bufSz := by
        simp only [List.length_cons]
        omega
      have hwle : min (x :: xt).length bufSz ≤ (x :: xt).length := Nat.min_le_left _ _
      unfold bulkRead
      rw [if_neg (by simp)]
      rw [List.take_append_of_le_length hwle]
      have htl : ((x :: xt).take (min (x :: xt).length bufSz)).length =
          min (x :: xt).length bufSz := by
        rw [List.length_take]
        omega
      rw [dif_neg (by omega)]
      dsimp only
      rw [show collectSink s ((x :: xt).take (min (x :: xt).length bufSz)) =
          (s ++ (x :: xt).take (min (x :: xt).length bufSz), true) from rfl]
      dsimp only
      rw [if_pos rfl]
      rw [List.drop_append_of_le_length hwle, htl]
      have hdl : ((x :: xt).drop (min (x :: xt).length bufSz)).length =
          (x :: xt).length - min (x :: xt).length bufSz := by
        rw [List.length_drop]
      rw [show (x :: xt).length - min (x :: xt).length bufSz =
          ((x :: xt).drop (min (x :: xt).length bufSz)).length from hdl.symm]
      rw [ih ((x :: xt).drop (min (x :: xt).length bufSz))
        (by rw [hdl]; simp only [List.length_cons] at hlen ⊢; omega)
        (s ++ (x :: xt).take (min (x :: xt).length bufSz)) rest]
      rw [List.append_assoc, List.take_append_drop]

/-- Bulk collection of a fully available chunk remainder. -/
theorem bulkRead_collect (bufSz : Nat) (hb : 0 < bufSz) (xs s rest : Bytes) :
    bulkRead collectSink bufSz xs.length s (xs ++ rest) = ⟨s ++ xs, 0, rest, false⟩ :=
  bulkRead_collect_aux bufSz hb xs.length xs le_rfl s rest

/-- The CHUNK_DONE state discards every remaining byte. -/
theorem chunkedLoop_done_run {σ : Type} (sink : σ → Bytes → σ × Bool) (bufSz : Nat) :
    ∀ (l cl : Bytes) (rem : Nat) (s : σ),
      chunkedLoop sink bufSz .CHUNK_DONE cl rem s l = ⟨.CHUNK_DONE, cl, rem, s, [], none⟩ := by
  intro l
  induction l with
  | nil => intro cl rem s; rw [chunkedLoop_nil]
  | cons c t ih =>
    intro cl rem s
    rw [chunkedLoop_done_cons]
    exact ih cl rem s

/-- The CHUNK_CRLF state consumes the carriage return and the newline after
a chunk body and returns to CHUNK_SIZE. -/
theorem chunkedLoop_crlf_pair {σ : Type} (sink : σ → Bytes → σ × Bool) (bufSz : Nat)
    (cl : Bytes) (rem : Nat) (s : σ) (rest : Bytes) :
    chunkedLoop sink bufSz .CHUNK_CRLF cl rem s ('\r' :: '\n' :: rest) =
      chunkedLoop sink bufSz .CHUNK_SIZE cl rem s rest := by
  rw [chunkedLoop_crlf_cons, if_neg (by decide), chunkedLoop_crlf_cons, if_pos rfl]

/-- Reading the size-line characters accumulates them in the line buffer as
long as the cap is respected. -/
theorem chunkedLoop_size_line {σ : Type} (sink : σ → Bytes → σ × Bool) (bufSz : Nat) :
    ∀ (ds cl : Bytes) (rem : Nat) (s : σ) (rest : Bytes),
      (∀ c ∈ ds, ¬c = '\n') → (cl ++ ds).length ≤ 64 →
      chunkedLoop sink bufSz .CHUNK_SIZE cl rem s (ds ++ rest) =
        chunkedLoop sink bufSz .CHUNK_SIZE (cl ++ ds) rem s rest := by
  intro ds
  induction ds with
  | nil =>
    intro cl rem s rest _ _
    simp
  | cons c dt ih =>
    intro cl rem s rest hnl hlen
    simp only [List.cons_append]
    rw [chunkedLoop_size_char sink bufSz cl rem s c _ (hnl c (by simp))]
    rw [if_neg (by
      simp only [List.length_append, List.length_cons, List.length_nil] at hlen ⊢
      omega)]
    rw [ih (cl ++ [c]) rem s rest (fun x hx => hnl x (by simp [hx]))
      (by simp only [List.length_append, List.length_cons, List.length_nil] at hlen ⊢; omega)]
    simp [List.append_assoc]

/-- Processing a complete size line for a non-zero chunk: the rendered hex
size followed by CRLF moves the machine into CHUNK_DATA with the declared
count. -/
theorem chunkedLoop_size_full {σ : Type} (sink : σ → Bytes → σ × Bool) (bufSz : Nat)
    (n : Nat) (hn0 : ¬n = 0) (hn : n < 2 ^ 32) (rem : Nat) (s : σ) (rest : Bytes) :
    chunkedLoop sink bufSz .CHUNK_SIZE [] rem s (natToHex n ++ '\r' :: '\n' :: rest) =
      chunkedLoop sink bufSz .CHUNK_DATA [] n s rest := by
  have hre : natToHex n ++ '\r' :: '\n' :: rest = (natToHex n ++ ['\r']) ++ ('\n' :: rest) := by
    simp
  rw [hre]
  have hlen64 : (([] : Bytes) ++ (natToHex n ++ ['\r'])).length ≤ 64 := by
    simp only [List.nil_append, List.length_append, List.length_cons, List.length_nil]
    have h1 : (natToHex n).length = hexLen n := by
      unfold natToHex
      rw [if_neg hn0, natToHexAux_length]
      simp
    have h2 : hexLen n ≤ 8 := hexLen_le 8 n (by
      have h28 : (16 : Nat) ^ 8 = 2 ^ 32 := by norm_num
      omega)
    omega
  rw [chunkedLoop_size_line sink bufSz (natToHex n ++ ['\r']) [] rem s ('\n' :: rest)
    ?hnl hlen64]
  case hnl =>
    intro c hc
    rcases List.mem_append.mp hc with hcm | hcm
    · obtain ⟨d, hd, hcd⟩ := natToHex_mem n c hcm
      rw [hcd]
      exact (hexDigitChar_facts d hd).2.2.1
    · simp only [List.mem_singleton] at hcm
      subst hcm
      decide
  rw [List.nil_append, chunkedLoop_size_nl]
  obtain ⟨d0, t0, hd0, hnt⟩ := natToHex_head n
  have hndne : ¬natToHex n = [] := by rw [hnt]; simp
  have hlast : (natToHex n).dropLast ++ [(natToHex n).getLast hndne] = natToHex n :=
    List.dropLast_append_getLast hndne
  obtain ⟨dz, hdz, hdzc⟩ := natToHex_mem n _ (List.getLast_mem hndne)
  have hzs : isSpaceB ((natToHex n).getLast hndne) = false := by
    rw [hdzc]
    exact (hexDigitChar_facts dz hdz).1
  have ht1 : trimB (natToHex n ++ ['\r']) = natToHex n := by
    have hs := trimB_sandwich (natToHex n) [] ['\r'] (by simp)
      (by intro c hc; simp only [List.mem_singleton] at hc; subst hc; decide)
      ⟨hexDigitChar d0, t0, hnt, (hexDigitChar_facts d0 hd0).1⟩
      ⟨(natToHex n).dropLast, (natToHex n).getLast hndne, hlast.symm, hzs⟩
    simpa using hs
  have ht2 : (natToHex n).takeWhile (fun c => c != ';') = natToHex n := by
    apply takeWhile_eq_self_of_all
    intro c hc
    obtain ⟨d, hd, hcd⟩ := natToHex_mem n c hc
    rw [hcd]
    simpa using (hexDigitChar_facts d hd).2.1
  have ht3 : trimB (natToHex n) = natToHex n := by
    have hs := trimB_sandwich (natToHex n) [] [] (by simp) (by simp)
      ⟨hexDigitChar d0, t0, hnt, (hexDigitChar_facts d0 hd0).1⟩
      ⟨(natToHex n).dropLast, (natToHex n).getLast hndne, hlast.symm, hzs⟩
    simpa using hs
  rw [ht1, ht2, ht3, strtoul16_natToHex n hn, if_neg hn0]

/-- Consuming a fully available chunk body with the collecting sink: every
byte is forwarded in order and the machine moves to CHUNK_CRLF. -/
theorem chunkedLoop_collect_data (bufSz : Nat) :
    ∀ (d : Bytes), ¬d = [] → ∀ (cl s rest : Bytes),
      chunkedLoop collectSink bufSz .CHUNK_DATA cl d.length s (d ++ rest) =
        chunkedLoop collectSink bufSz .CHUNK_CRLF cl 0 (s ++ d) rest := by
  intro d
  induction d with
  | nil => intro h; exact absurd rfl h
  | cons ch dt ih =>
    intro _ cl s rest
    simp only [List.cons_append]
    rw [chunkedLoop_data_cons]
    rw [show collectSink s [ch] = (s ++ [ch], true) from rfl]
    have hrem : (ch :: dt).length - 1 = dt.length := by simp
    rw [hrem]
    by_cases hbz : bufSz = 0
    · subst hbz
      rw [bulkRead_zero]
      dsimp only
      rw [if_pos rfl, if_neg (by simp)]
      by_cases hdt : dt = []
      · subst hdt
        simp
      · rw [if_neg (by simp [hdt])]
        rw [ih hdt cl (s ++ [ch]) rest]
        simp
    · have hb : 0 < bufSz := Nat.pos_of_ne_zero hbz
      rw [bulkRead_collect bufSz hb dt (s ++ [ch]) rest]
      dsimp only
      rw [if_pos rfl, if_neg (by simp), if_pos rfl]
      simp

/-- Running the decoder over a whole encoding with the collecting sink
appends exactly the chunk contents in order and ends in CHUNK_DONE. -/
theorem chunkedLoop_encode (bufSz : Nat) :
    ∀ (chunks : List Bytes), (∀ c ∈ chunks, ¬c = []) →
      (∀ c ∈ chunks, c.length < 2 ^ 32) → ∀ (s : Bytes),
      chunkedLoop collectSink bufSz .CHUNK_SIZE [] 0 s (encodeChunked chunks) =
        ⟨.CHUNK_DONE, [], 0, s ++ chunks.flatten, [], none⟩ := by
  intro chunks
  induction chunks with
  | nil =>
    intro _ _ s
    show chunkedLoop collectSink bufSz .CHUNK_SIZE [] 0 s
      ('0' :: '\r' :: '\n' :: '\r' :: '\n' :: []) = _
    rw [chunkedLoop_size_char _ _ _ _ _ _ _ (by decide), if_neg (by decide)]
    rw [chunkedLoop_size_char _ _ _ _ _ _ _ (by decide), if_neg (by decide)]
    rw [chunkedLoop_size_nl, if_pos (by decide), chunkedLoop_done_run]
    simp
    decide
  | cons c cs ih =>
    intro hne hlen s
    have hc_ne : ¬c = [] := hne c (by simp)
    have hc_len : c.length < 2 ^ 32 := hlen c (by simp)
    have henc : encodeChunked (c :: cs) =
        natToHex c.length ++ '\r' :: '\n' :: (c ++ ('\r' :: '\n' :: encodeChunked cs)) := by
      unfold encodeChunked encodeChunk
      simp
    rw [henc]
    rw [chunkedLoop_size_full collectSink bufSz c.length
      (fun h => hc_ne (List.length_eq_zero.mp h)) hc_len 0 s _]
    rw [chunkedLoop_collect_data bufSz c hc_ne [] s _]
    rw [chunkedLoop_crlf_pair]
    rw [ih (fun x hx => hne x (by simp [hx])) (fun x hx => hlen x (by simp [hx])) (s ++ c)]
    simp

/-- C1: for every body byte sequence and every split of it into non-empty
chunks (each within the 32-bit size bound of the parser), running the
chunked body decoder over the wire encoding of those chunks, terminated by
the zero-length chunk, forwards to the body sink exactly the original byte
sequence in order, with the whole encoding consumed, no decoder failure,
and the machine resting in CHUNK_DONE. -/
theorem chunked_decode_roundtrip (chunks : List Bytes) (bufSz : Nat)
    (hne : ∀ c ∈ chunks, ¬c = []) (hlen : ∀ c ∈ chunks, c.length < 2 ^ 32) :
    chunkedLoop collectSink bufSz .CHUNK_SIZE [] 0 [] (encodeChunked chunks) =
      ⟨.CHUNK_DONE, [], 0, chunks.flatten, [], none⟩ := by
  have h := chunkedLoop_encode bufSz chunks hne hlen []
  simpa using h

/-- A concrete two-chunk split of the body bytes d a t a. -/
def c1Chunks : List Bytes := [['d', 'a', 't'], ['a']]

/-- Witness for C1 at a concrete split and buffer size. -/
theorem chunked_decode_roundtrip_witness :
    (∀ c ∈ c1Chunks, ¬c = []) ∧ (∀ c ∈ c1Chunks, c.length < 2 ^ 32) ∧
      chunkedLoop collectSink 512 .CHUNK_SIZE [] 0 [] (encodeChunked c1Chunks) =
        ⟨.CHUNK_DONE, [], 0, c1Chunks.flatten, [], none⟩ :=
  ⟨by decide, by decide, chunked_decode_roundtrip c1Chunks 512 (by decide) (by decide)⟩

end HttpsClient
